import Mathlib

/-!
# Verification of the QualCoder radial graph layout (`qualcoder/view_graph.py`)

This file gives a shallow embedding of the radial graph layout pipeline of
`ViewGraph.do_graph`, the subtree selection `ViewGraph.get_node_with_children`,
and the link endpoint computation `LinkGraphicsItem.calculatePointsAndDraw`,
and proves properties of them.

Conventions of the embedding:

* Python `float` coordinates are idealised as real numbers `ℝ`; several
  definitions are therefore `noncomputable` (real comparisons and `Real.cos` /
  `Real.sin` are classical), but every branching condition that the Python
  code evaluates on non-float data (`is None` checks, integer equality) is
  kept decidable.
* A node dictionary becomes the structure `Node`.  The metadata entries
  `memo`, `owner`, `date` of the Python dicts never influence the layout and
  are omitted.
* In-place mutation of the node list becomes explicit state passing: one
  relaxation pass is a fold over the indices of the list, so that updates made
  earlier in a pass are visible later in the same pass, exactly as with the
  Python dict objects.  When the inner `for super_m in model` scan reaches the
  node `m` currently being positioned, `super_m` and `m` alias the same dict;
  the embedding threads the current value of `m` in for that index.
* A `while` loop whose exit is not structurally guaranteed is embedded with
  explicit fuel equal to the Python iteration cap; the depth-computation
  `while`, which has no cap in Python and can loop forever, gets fuel
  `cats.length + 1` together with an error value `.depthFuelExhausted`
  standing for divergence of the Python loop.
* Fallible steps return `Except DGErr`: `.clampTypeError` models the
  `TypeError` raised by `None < 2` in the out-of-view clamp,
  `.removeValueError` the `ValueError` of `list.remove` on a missing element,
  and `.badSelector` the `TypeError` reached when the combo box text matches
  no category name and the raw string flows into `get_node_with_children`.
-/

open Real

/-- A node of the displayed graph: one entry of the `model` list in
`do_graph`, unifying a category dict and a code dict.  `catid` is `some` for
categories (their own id) and for codes (the owning category id, which the
Python code also stores into `supercatid` at initialisation); `cid` is `some`
only for codes. -/
structure Node where
  name : String
  catid : Option ℕ
  supercatid : Option ℕ
  cid : Option ℕ
  depth : ℕ
  x : Option ℝ
  y : Option ℝ
  angle : Option ℝ
  color : String
  fontsize : ℕ

instance : Inhabited Node :=
  ⟨⟨"", none, none, none, 0, none, none, none, "", 8⟩⟩

noncomputable instance : DecidableEq Node := Classical.decEq _

/-- A category row as fetched from `code_cat` (metadata columns omitted). -/
structure CatRow where
  name : String
  catid : ℕ
  supercatid : Option ℕ

/-- A code row as fetched from `code_name` (metadata columns omitted). -/
structure CodeRow where
  name : String
  cid : ℕ
  catid : Option ℕ
  color : String

/-- Errors of the embedded pipeline, see the module docstring. -/
inductive DGErr where
  | badSelector
  | removeValueError
  | depthFuelExhausted
  | clampTypeError
deriving DecidableEq

/-- Initialisation of a code dict in `do_graph` (lines 130-138): depth 0, no
position, `supercatid := catid`, no angle, white color in black-and-white
mode, font size 8. -/
def initCode (bw : Bool) (r : CodeRow) : Node :=
  { name := r.name, catid := r.catid, supercatid := r.catid, cid := some r.cid,
    depth := 0, x := none, y := none, angle := none,
    color := if bw then "#FFFFFF" else r.color, fontsize := 8 }

/-- Initialisation of a category dict in `do_graph` (lines 139-150): depth 0,
no position, `cid := None`, no angle, white color, font size 8; with the
font-size checkbox set, the size is first set to 9 and then, since `depth`
was just initialised to 0, unconditionally overwritten with 10. -/
def initCat (fs : Bool) (r : CatRow) : Node :=
  { name := r.name, catid := some r.catid, supercatid := r.supercatid, cid := none,
    depth := 0, x := none, y := none, angle := none,
    color := "#FFFFFF", fontsize := if fs then 10 else 8 }

/-- `list.remove(n)`: drop the first element structurally equal to `n`;
`none` models the `ValueError` raised when no element is equal. -/
noncomputable def removeFirst : List Node → Node → Option (List Node)
  | [], _ => none
  | m :: rest, n => if m = n then some rest else (removeFirst rest n).map (m :: ·)

/-- Sequentially remove each element of the second list from the first
(the `for n in append_list: model.remove(n)` loop). -/
noncomputable def removeAll : List Node → List Node → Option (List Node)
  | model, [] => some model
  | model, n :: rest => (removeFirst model n).bind (removeAll · rest)

/-- One-round body plus recursion of the `while` loop of
`get_node_with_children` (lines 243-256), with fuel for the `i < 10` cap.
`append_list` is collected over the unmodified `model` first (outer loop over
`new_model`, inner loop over `model`), then appended to `new_model` and
removed from `model`. -/
noncomputable def gnwcLoop : ℕ → List Node → List Node → Except DGErr (List Node)
  | 0, newM, _ => .ok newM
  | fuel + 1, newM, model =>
    match model with
    | [] => .ok newM
    | _ =>
      let appendList := newM.flatMap fun n => model.filter fun m => m.supercatid == n.catid
      match removeAll model appendList with
      | none => .error .removeValueError
      | some model' =>
        match appendList with
        | [] => .ok newM
        | _ => gnwcLoop fuel (newM ++ appendList) model'

/-- `ViewGraph.get_node_with_children` (lines 237-257): `node = None` returns
the model unchanged, otherwise breadth-first expansion of `[node]` capped at
10 rounds. -/
noncomputable def getNodeWithChildren (node : Option Node) (model : List Node) :
    Except DGErr (List Node) :=
  match node with
  | none => .ok model
  | some n => gnwcLoop 10 [n] model

/-- One sweep of `for s in cats` inside the depth `while` loop (lines
170-174): every category whose `catid` equals the current `supercatid` value
advances the chain one hop and increments the depth counter. -/
def depthSweep (cats : List Node) (p : Option ℕ × ℕ) : Option ℕ × ℕ :=
  cats.foldl (fun q s => if q.1 = s.catid then (s.supercatid, q.2 + 1) else q) p

/-- The depth `while supercatid is not None` loop (lines 170-175) with
explicit fuel counting the sweeps; `none` models divergence of the Python
loop (which has no iteration cap). -/
def depthLoopF (cats : List Node) : ℕ → Option ℕ → ℕ → Option ℕ
  | 0, sc, d => if sc = none then some d else none
  | fuel + 1, sc, d =>
    if sc = none then some d
    else
      let q := depthSweep cats (sc, d)
      depthLoopF cats fuel q.1 q.2

/-- Depth of one node: run the sweep loop from its `supercatid` with counter
0.  If the loop never ran (root node) the node keeps its initialised depth 0,
which coincides with the counter value.  Fuel `cats.length + 1` is enough for
every chain the Python loop resolves at all: a sweep that advances no hop
repeats forever, and a terminating chain over distinct category ids performs
at most `cats.length` hops. -/
def nodeDepth (cats : List Node) (sc : Option ℕ) : Option ℕ :=
  depthLoopF cats (cats.length + 1) sc 0

/-- The depth phase of `do_graph` (lines 162-176) over the whole model;
`.error .depthFuelExhausted` stands for divergence of the Python loop. -/
def depthPhase (cats : List Node) : List Node → Except DGErr (List Node)
  | [] => .ok []
  | m :: rest =>
    match nodeDepth cats m.supercatid with
    | none => .error .depthFuelExhausted
    | some d => (depthPhase cats rest).map ({ m with depth := d } :: ·)

/-- Keys of `Counter(supercatid_list)` in Python dict order: first
occurrences, in list order. -/
def firstOccs : List (Option ℕ) → List (Option ℕ) :=
  List.foldl (fun acc a => if a ∈ acc then acc else acc ++ [a]) []

/-- Inner loop of the angle assignment for one `cat_key` (lines 181-185):
walk the model once; every node with no angle yet whose `supercatid` is the
key receives `(2π / count) * (segment + 1)` and bumps `segment`, which starts
at 1. -/
noncomputable def assignKeyAux (key : Option ℕ) (cnt : ℕ) : ℕ → List Node → List Node
  | _, [] => []
  | seg, m :: rest =>
    if m.angle.isNone && m.supercatid == key then
      { m with angle := some (2 * π / (cnt : ℝ) * ((seg : ℝ) + 1)) } ::
        assignKeyAux key cnt (seg + 1) rest
    else
      m :: assignKeyAux key cnt seg rest

/-- The angle phase of `do_graph` (lines 178-185): iterate the counter keys
in first-occurrence order; the group size is the multiplicity of the key in
the `supercatid` list collected during the depth phase. -/
noncomputable def anglePhase (model : List Node) : List Node :=
  let scList := model.map (·.supercatid)
  (firstOccs scList).foldl (fun st key => assignKeyAux key (scList.count key) 1 st) model

/-- One assignment of a child position from a positioned super node, lines
205-209.  `nx, ny` are the freshly computed raw coordinates, `sx, sy` the
super node's coordinates as stored.  The nudge test re-reads `super_m['x']`
after the assignment; when `super_m` and `m` alias the same dict
(`alias = true`, the self-match of the scan), that read returns the value
just written, so the absolute differences are 0 and the `+20` nudge always
fires. -/
noncomputable def assignStep (alias' : Bool) (sx sy nx ny : ℝ) : ℝ × ℝ :=
  let cx := if alias' then nx else sx
  let cy := if alias' then ny else sy
  if |cx - nx| < 20 ∧ |cy - ny| < 20 then (nx + 20, ny + 20) else (nx, ny)

/-- One step of the `for super_m in model` scan (lines 203-209) while node
`i` is being positioned: `cur` is the current value of node `i`, `j` the
index of `super_m`.  There is no `break`, so a later match overwrites the
coordinates computed by an earlier one; at `j = i` the scan sees the node
being positioned itself (for codes `catid == supercatid`, so once `cur.x` has
been set earlier in the scan the self-match fires). -/
noncomputable def scanGo (r rx : ℝ) (st : List Node) (i : ℕ) (cur : Node) (j : ℕ) : Node :=
  let s := if j == i then cur else st.getD j default
  if s.catid == cur.supercatid && s.x.isSome then
    let dx := Real.cos (cur.angle.getD 0) * (r * rx) / ((cur.depth : ℝ) + 2)
    let dy := Real.sin (cur.angle.getD 0) * r / ((cur.depth : ℝ) + 2)
    let p := assignStep (j == i) (s.x.getD 0) (s.y.getD 0) (s.x.getD 0 + dx) (s.y.getD 0 + dy)
    { cur with x := some p.1, y := some p.2 }
  else cur

/-- Positioning of the node at index `i` against the current state `st`
(lines 199-209): a root (`supercatid is None`) is placed on the circle of
radius `r` (stretched by `rx` on x) around the centre; otherwise the model is
scanned for positioned nodes with matching `catid`. -/
noncomputable def positionNode (cx cy r rx : ℝ) (st : List Node) (i : ℕ) : Node :=
  let m := st.getD i default
  if m.x.isNone then
    match m.supercatid with
    | none =>
        { m with x := some (cx + Real.cos (m.angle.getD 0) * (r * rx)),
                 y := some (cy + Real.sin (m.angle.getD 0) * r) }
    | some _ => (List.range st.length).foldl (scanGo r rx st i) m
  else m

/-- One pass of the relaxation loop (`for m in model`, lines 198-211): the
nodes are processed in list order and updates are immediately visible to
later nodes of the same pass. -/
noncomputable def layoutPass (cx cy r rx : ℝ) (st : List Node) : List Node :=
  (List.range st.length).foldl (fun acc i => acc.set i (positionNode cx cy r rx acc i)) st

/-- The `while x_is_none and i < 1000` loop (lines 195-212) with fuel 1000:
the flag recomputed during a pass is true exactly when some node is still
unpositioned after the pass, since a node's `x` can only be written by its
own processing step. -/
noncomputable def layoutLoop (cx cy r rx : ℝ) : ℕ → List Node → List Node
  | 0, st => st
  | fuel + 1, st =>
    let st' := layoutPass cx cy r rx st
    if st'.any (fun m => m.x.isNone) then layoutLoop cx cy r rx fuel st' else st'

/-- The out-of-view clamp for one node (lines 215-223), as the Python
sequence of four `if` statements; a missing coordinate models the `TypeError`
of comparing `None < 2`. -/
noncomputable def clampNode (cx cy : ℝ) (m : Node) : Except DGErr Node :=
  match m.x, m.y with
  | some xv, some yv =>
    let x1 := if xv < 2 then 2 else xv
    let y1 := if yv < 2 then 2 else yv
    let x2 := if x1 > cx * 2 - 20 then cx * 2 - 20 else x1
    let y2 := if y1 > cy * 2 - 20 then cy * 2 - 20 else y1
    .ok { m with x := some x2, y := some y2 }
  | _, _ => .error .clampTypeError

/-- The clamp phase over the model (lines 214-223), aborting at the first
node with a missing coordinate exactly as the Python loop raises there. -/
noncomputable def clampPhase (cx cy : ℝ) : List Node → Except DGErr (List Node)
  | [] => .ok []
  | m :: rest => (clampNode cx cy m).bind fun m' => (clampPhase cx cy rest).map (m' :: ·)

/-- Resolution of the combo box text (lines 154-159): `"All"` selects the
whole model; otherwise the first category with that name (once `top_node` has
been replaced by a dict, the comparison `c['name'] == top_node` is a
string-to-dict comparison and never fires again).  A text matching no
category leaves `top_node` a string, which `get_node_with_children` then
subscripts — a `TypeError`, modelled as `.badSelector`. -/
noncomputable def resolveTopNode (sel : String) (cats : List Node) :
    Except DGErr (Option Node) :=
  if sel = "All" then .ok none
  else
    match cats.find? (fun c => c.name == sel) with
    | some c => .ok (some c)
    | none => .error .badSelector

/-- The whole layout computation of `ViewGraph.do_graph` (lines 122-223) up
to and including the out-of-view clamp, for scene dimensions `w × h`:
initialise codes and categories, select the subtree, compute depths, assign
angles, run the relaxation loop with cap 1000 from the centre
`(w / 3, h / 2)` with radius 180 and x-stretch `rx = (w / 3) / (h / 2)`, then
clamp. -/
noncomputable def doGraph (cats : List CatRow) (codes : List CodeRow)
    (bw fs : Bool) (sel : String) (w h : ℝ) : Except DGErr (List Node) := do
  let catsN := cats.map (initCat fs)
  let codesN := codes.map (initCode bw)
  let model := catsN ++ codesN
  let top ← resolveTopNode sel catsN
  let model1 ← getNodeWithChildren top model
  let model2 ← depthPhase catsN model1
  let model3 := anglePhase model2
  let cx := w / 3
  let cy := h / 2
  let r : ℝ := 180
  let rx := cx / cy
  let model4 := layoutLoop cx cy r rx 1000 model3
  clampPhase cx cy model4

/-- The dialog state that `do_graph` reads: the stored category and code rows
(`self.categories`, `self.code_names`).  `do_graph` works on `deepcopy`s of
both lists (line 127-128), so a run leaves the state unchanged. -/
structure VGState where
  categories : List CatRow
  code_names : List CodeRow

/-- One invocation of `do_graph` as a state transition: the result is a pure
function of the stored rows and the widget settings, and the stored rows are
returned unmodified because `do_graph` only ever mutates the deep copies. -/
noncomputable def doGraphRun (st : VGState) (bw fs : Bool) (sel : String) (w h : ℝ) :
    VGState × Except DGErr (List Node) :=
  (st, doGraph st.categories st.code_names bw fs sel w h)

/-- An axis-aligned text box for the link computation: scene position of the
top-left corner and bounding rectangle extent. -/
structure Box where
  x : ℝ
  y : ℝ
  w : ℝ
  h : ℝ

/-- Resolvability of a node's parent within the node list itself, as the
relaxation loop needs it: either the node is a root, or some node of the list
carries the matching `catid` and is itself resolvable with one hop less.
`fuel` bounds the length of the parent chain. -/
def resolvesIn (model : List Node) : ℕ → Node → Bool
  | 0, m => m.supercatid.isNone
  | fuel + 1, m =>
    m.supercatid.isNone || model.any fun p => p.catid == m.supercatid && resolvesIn model fuel p

/-- Resolvability of a `supercatid` chain through the category list, as the
depth loop walks it: follow the first category whose `catid` matches, at most
`fuel` hops, until a chain value of `none` is reached. -/
def catChainResolves (cats : List Node) : ℕ → Option ℕ → Bool
  | _, none => true
  | 0, some _ => false
  | fuel + 1, some k =>
    match cats.find? (fun s => s.catid == some k) with
    | none => false
    | some s => catChainResolves cats fuel s.supercatid

/-- One widening step of the downward `catid` closure: add the `catid` of
every node whose `supercatid` is already in the accumulator. -/
def dcStep (model : List Node) (acc : List (Option ℕ)) : List (Option ℕ) :=
  acc ++ (model.filter (fun m => m.supercatid ∈ acc)).map (·.catid)

/-- Iterated widening of the downward closure. -/
def dcIter (model : List Node) : ℕ → List (Option ℕ) → List (Option ℕ)
  | 0, acc => acc
  | fuel + 1, acc => dcIter model fuel (dcStep model acc)

/-- All `catid` values reachable downward from the seed `catid` in at most 10
rounds — an over-approximation of the `catid`s that the 10-round expansion of
`get_node_with_children` can pull into the working set. -/
def downClosure (model : List Node) (seed : Option ℕ) : List (Option ℕ) :=
  dcIter model 10 [seed]

/-- The category row "Health" of the two-code scenario. -/
def healthRow : CatRow := ⟨"Health", 1, none⟩

/-- The code row "Diet" of the two-code scenario. -/
def dietRow : CodeRow := ⟨"Diet", 10, some 1, "#FF0000"⟩

/-- The code row "Exercise" of the two-code scenario. -/
def exerciseRow : CodeRow := ⟨"Exercise", 11, some 1, "#00FF00"⟩

/-- The "Diet" node as `do_graph` initialises it. -/
def dietNode : Node := initCode false dietRow

/-- A four-deep category chain A → B → C → D (each the only child of its
parent), used to drive parent and child into the same clamp corner. -/
def chainRows : List CatRow :=
  [⟨"A", 1, none⟩, ⟨"B", 2, some 1⟩, ⟨"C", 3, some 2⟩, ⟨"D", 4, some 3⟩]

/-- Two categories A and its child B, the smallest non-root selection. -/
def abRows : List CatRow := [⟨"A", 1, none⟩, ⟨"B", 2, some 1⟩]

/-- The category node B as `do_graph` initialises it. -/
def bNode : Node := initCat false ⟨"B", 2, some 1⟩

/-- The initialised category list of `abRows`. -/
def abCats : List Node := abRows.map (initCat false)

/-- The model of the chain scenario after the depth and angle phases: every
node is the only member of its parent group, so every angle is
`(2π / 1) * (1 + 1) = 4π`. -/
noncomputable def chainModel3 : List Node :=
  [⟨"A", some 1, none, none, 0, none, none, some (4 * π), "#FFFFFF", 8⟩,
   ⟨"B", some 2, some 1, none, 1, none, none, some (4 * π), "#FFFFFF", 8⟩,
   ⟨"C", some 3, some 2, none, 2, none, none, some (4 * π), "#FFFFFF", 8⟩,
   ⟨"D", some 4, some 3, none, 3, none, none, some (4 * π), "#FFFFFF", 8⟩]

/-- The chain scenario after the relaxation loop, before the clamp: the
radius shrinks along the chain (60, 45, 36) and every angle is `4π`, so the
chain marches right along `y = 300` to 480, 540, 585, 621. -/
noncomputable def chainRaw : List Node :=
  [⟨"A", some 1, none, none, 0, some 480, some 300, some (4 * π), "#FFFFFF", 8⟩,
   ⟨"B", some 2, some 1, none, 1, some 540, some 300, some (4 * π), "#FFFFFF", 8⟩,
   ⟨"C", some 3, some 2, none, 2, some 585, some 300, some (4 * π), "#FFFFFF", 8⟩,
   ⟨"D", some 4, some 3, none, 3, some 621, some 300, some (4 * π), "#FFFFFF", 8⟩]

/-- The chain scenario after the clamp with bound `(900/3)*2 - 20 = 580`:
C and D are both clamped onto `x = 580` and coincide exactly. -/
noncomputable def chainFinal : List Node :=
  [⟨"A", some 1, none, none, 0, some 480, some 300, some (4 * π), "#FFFFFF", 8⟩,
   ⟨"B", some 2, some 1, none, 1, some 540, some 300, some (4 * π), "#FFFFFF", 8⟩,
   ⟨"C", some 3, some 2, none, 2, some 580, some 300, some (4 * π), "#FFFFFF", 8⟩,
   ⟨"D", some 4, some 3, none, 3, some 580, some 300, some (4 * π), "#FFFFFF", 8⟩]

/-- Expected final "Health" node of the two-code scenario: on the radial
circle at angle `4π`, i.e. at `(300 + 180, 300)`. -/
noncomputable def healthFinal : Node :=
  ⟨"Health", some 1, none, none, 0, some 480, some 300, some (4 * π), "#FFFFFF", 8⟩

/-- Expected final "Diet" node: angle `2π`, placed at `(540, 300)` from the
root, then re-placed from itself at `(600, 300)` by the self-match of the
scan and nudged to `(620, 320)`, then clamped to `x = 580`. -/
noncomputable def dietFinal : Node :=
  ⟨"Diet", some 1, some 1, some 10, 1, some 580, some 320, some (2 * π), "#FF0000", 8⟩

/-- Expected final "Exercise" node: angle `3π`, successively re-placed at
`(420, 300)`, `(560, 320)` and `(500, 320)` by the three scan matches, the
last being the self-match, which nudges to `(520, 340)`. -/
noncomputable def exerciseFinal : Node :=
  ⟨"Exercise", some 1, some 1, some 11, 1, some 520, some 340, some (3 * π), "#00FF00", 8⟩

/-- A node with a dangling parent reference: `supercatid = 99` matches no
`catid` in any list it appears in alone.  Its parent relation is trivially
acyclic. -/
def danglingNode : Node := ⟨"X", some 7, some 99, none, 0, none, none, none, "#FFFFFF", 8⟩

/-- A single root node with no angle assigned yet, the smallest input to the
angle phase. -/
def soloRoot : Node := ⟨"R", some 1, none, none, 0, none, none, none, "#FFFFFF", 8⟩

/-- A positioned node far right of the clamp bound. -/
def farNode : Node := ⟨"F", some 1, none, none, 0, some 1000, some 300, none, "#FFFFFF", 8⟩

/-- A positioned node inside the clamp bounds. -/
def posNode : Node := ⟨"P", some 1, none, none, 0, some 100, some 50, none, "#FFFFFF", 8⟩

/-- Two boxes with identical x spans, stacked vertically: they overlap
totally along x. -/
def fromBoxC9 : Box := ⟨0, 0, 100, 30⟩

/-- See `fromBoxC9`. -/
def toBoxC9 : Box := ⟨0, 100, 100, 30⟩

/-- A from box whose x span strictly contains the to corner. -/
def fromBoxW : Box := ⟨0, 0, 100, 30⟩

/-- A to box strictly below `fromBoxW`, its corner at the from box's x
midpoint. -/
def toBoxW : Box := ⟨50, 100, 200, 30⟩

/-- `LinkGraphicsItem.calculatePointsAndDraw` (lines 639-684): the four
endpoint coordinates `(from_x, from_y, to_x, to_y)` of the link line between
the two boxes, computed per axis by the literal cascade of `if` statements of
the source (note that the second midpoint test of each axis reads the
already-updated `from` coordinate, and that the near-edge test of the y axis
compares `to_y > from_y` without the height offset used on the x axis). -/
noncomputable def calculatePoints (fromB toB : Box) : ℝ × ℝ × ℝ × ℝ :=
  let to_x0 := toB.x
  let from_x0 := fromB.x
  let from_x1 := if to_x0 > from_x0 ∧ to_x0 < from_x0 + fromB.w then from_x0 + fromB.w / 2 else from_x0
  let to_x1 := if from_x1 > to_x0 ∧ from_x1 < to_x0 + toB.w then to_x0 + toB.w / 2 else to_x0
  let x_overlap : Prop :=
    (to_x0 > from_x0 ∧ to_x0 < from_x0 + fromB.w) ∨ (from_x1 > to_x0 ∧ from_x1 < to_x0 + toB.w)
  let from_x2 := if ¬x_overlap ∧ to_x1 > from_x1 + fromB.w then from_x1 + fromB.w else from_x1
  let to_x2 :=
    if ¬x_overlap ∧ to_x1 > from_x1 + fromB.w then to_x1
    else if ¬x_overlap ∧ from_x1 > to_x1 + toB.w then to_x1 + toB.w
    else to_x1
  let to_y0 := toB.y
  let from_y0 := fromB.y
  let from_y1 := if to_y0 > from_y0 ∧ to_y0 < from_y0 + fromB.h then from_y0 + fromB.h / 2 else from_y0
  let to_y1 := if from_y1 > to_y0 ∧ from_y1 < to_y0 + toB.h then to_y0 + toB.h / 2 else to_y0
  let y_overlap : Prop :=
    (to_y0 > from_y0 ∧ to_y0 < from_y0 + fromB.h) ∨ (from_y1 > to_y0 ∧ from_y1 < to_y0 + toB.h)
  let from_y2 := if ¬y_overlap ∧ to_y1 > from_y1 then from_y1 + fromB.h else from_y1
  let to_y2 :=
    if ¬y_overlap ∧ to_y1 > from_y1 then to_y1
    else if ¬y_overlap ∧ from_y1 > to_y1 then to_y1 + toB.h
    else to_y1
  (from_x2, from_y2, to_x2, to_y2)

/-! ## Helper lemmas -/

theorem layoutLoop_fixpoint (cx cy r rx : ℝ) (st : List Node)
    (h : layoutPass cx cy r rx st = st) : ∀ f, layoutLoop cx cy r rx f st = st := by
  intro f
  induction f with
  | zero => rfl
  | succ n ih =>
    simp only [layoutLoop, h]
    split <;> [exact ih; rfl]

theorem dangling_pass : layoutPass 300 300 180 1 [danglingNode] = [danglingNode] := rfl

theorem clampOne (v hi : ℝ) :
    (if (if v < 2 then (2 : ℝ) else v) > hi then hi else if v < 2 then 2 else v) =
      min (max v 2) hi := by
  rw [max_def, min_def]
  split_ifs <;> linarith

/-! ## Claim theorems -/

/-- C10: running the full layout pass twice on the same unmodified dialog
state (same stored categories and codes, same option flags, selector and
scene size, no drags in between) yields the same result, because `do_graph`
works on deep copies and never mutates the stored rows. -/
theorem c10_layout_idempotent (st : VGState) (bw fs : Bool) (sel : String) (w h : ℝ) :
    (doGraphRun (doGraphRun st bw fs sel w h).1 bw fs sel w h).2 =
      (doGraphRun st bw fs sel w h).2 := rfl

/-- C6 (amended): one assignment of a child position from a positioned super
node guarantees only this much — either the raw placement is kept and then it
differs from the super node's position by at least 20 on at least one axis,
or the `+20` nudge fires and the final placement exceeds the super node by a
strictly positive amount below 40 on each axis.  A difference of at least 20
on *each* axis is not guaranteed, and the subsequent clamp can cancel even
this (see the C6 counterexample). -/
theorem c6_amended (sx sy nx ny : ℝ) :
    (20 ≤ |sx - (assignStep false sx sy nx ny).1| ∨
      20 ≤ |sy - (assignStep false sx sy nx ny).2|) ∨
    (0 < (assignStep false sx sy nx ny).1 - sx ∧ (assignStep false sx sy nx ny).1 - sx < 40 ∧
      0 < (assignStep false sx sy nx ny).2 - sy ∧ (assignStep false sx sy nx ny).2 - sy < 40) := by
  simp only [assignStep, if_false, Bool.false_eq_true, ite_false]
  split_ifs with h
  · obtain ⟨h1, h2⟩ := h
    rw [abs_lt] at h1 h2
    right
    dsimp only
    exact ⟨by linarith [h1.1, h1.2], by linarith [h1.1, h1.2],
      by linarith [h2.1, h2.2], by linarith [h2.1, h2.2]⟩
  · left
    rw [Decidable.not_and_iff_or_not] at h
    rcases h with h | h <;> rw [not_lt] at h
    · left; linarith [le_abs_self (sx - nx), neg_abs_le (sx - nx)]
    · right; linarith [le_abs_self (sy - ny), neg_abs_le (sy - ny)]

/-- C2 (counterexample): the category B, selected as subtree root, is the
only node of its working set, and its parent A is not in that set — yet the
depth phase assigns it depth 1, not 0, because the `while` loop walks the
*full* category list, not the selected set. -/
theorem c2_counterexample :
    ([bNode].all fun m => m.catid != bNode.supercatid) = true ∧
    depthPhase abCats [bNode] = .ok [{ bNode with depth := 1 }] ∧ (1 : ℕ) ≠ 0 := by
  refine ⟨by rfl, by rfl, one_ne_zero⟩

/-- C1 (counterexample): a single node with a dangling parent reference — an
acyclic parent relation, since the list contains no node matching its
`supercatid` at all — is still unpositioned when the 1000-pass relaxation
loop exits. -/
theorem c1_counterexample :
    ([danglingNode].all fun p => p.catid != danglingNode.supercatid) = true ∧
    ((layoutLoop 300 300 180 1 1000 [danglingNode]).getD 0 default).x = none := by
  refine ⟨rfl, ?_⟩
  rw [layoutLoop_fixpoint 300 300 180 1 [danglingNode] dangling_pass 1000]
  rfl

theorem gnwc_self_dup (n : Node) (h : n.supercatid = n.catid) :
    getNodeWithChildren (some n) [n] = .ok [n, n] := by
  simp [getNodeWithChildren, gnwcLoop, removeAll, removeFirst, h]

/-- C7 (amended): selecting a leaf code with no children as subtree root,
with the code as the only node of the working model, returns the code
*twice*: because `do_graph` sets a code's `supercatid` to its own `catid`
(its parent reference), the expansion re-collects the root itself via the
match `m['supercatid'] == n['catid']`. -/
theorem c7_amended (n : Node) (h : n.supercatid = n.catid) :
    getNodeWithChildren (some n) [n] = .ok [n, n] :=
  gnwc_self_dup n h

/-- Witness for C7: the concrete "Diet" code node. -/
theorem c7_witness :
    dietNode.supercatid = dietNode.catid ∧
    getNodeWithChildren (some dietNode) [dietNode] = .ok [dietNode, dietNode] :=
  ⟨rfl, c7_amended dietNode rfl⟩

/-- C7 (counterexample): the returned node list for the leaf code "Diet" is
not the one-element list containing just the "Diet" node. -/
theorem c7_counterexample :
    getNodeWithChildren (some dietNode) [dietNode] ≠ .ok [dietNode] := by
  rw [gnwc_self_dup dietNode rfl]
  intro hcontra
  simp at hcontra

/-- C8 (amended): when every node is positioned, the out-of-view clamp maps
each `x` to `min (max x 2) (cx*2 - 20)` and each `y` to
`min (max y 2) (cy*2 - 20)` — where `cx = w/3` and `cy = h/2` are the centre
coordinates derived from the scene size, so the upper bounds are
`(w/3)*2 - 20` and `(h/2)*2 - 20`, not `w*2 - 20` and `h*2 - 20`. -/
theorem c8_amended (w h : ℝ) (model : List Node)
    (hpos : ∀ m ∈ model, m.x.isSome ∧ m.y.isSome) :
    clampPhase (w / 3) (h / 2) model = .ok (model.map fun m =>
      { m with x := some (min (max (m.x.getD 0) 2) ((w / 3) * 2 - 20)),
               y := some (min (max (m.y.getD 0) 2) ((h / 2) * 2 - 20)) }) := by
  induction model with
  | nil => rfl
  | cons m rest ih =>
    obtain ⟨hx, hy⟩ := hpos m (List.mem_cons_self m rest)
    obtain ⟨xv, hxv⟩ := Option.isSome_iff_exists.mp hx
    obtain ⟨yv, hyv⟩ := Option.isSome_iff_exists.mp hy
    have ih' := ih fun p hp => hpos p (List.mem_cons_of_mem m hp)
    simp only [clampPhase, clampNode, hxv, hyv, List.map_cons]
    rw [ih']
    simp [Except.bind, Except.map, clampOne, hxv, hyv]

/-- Witness for C8: a positioned node on a 900×600 scene. -/
theorem c8_witness :
    (∀ m ∈ [posNode], m.x.isSome ∧ m.y.isSome) ∧
    clampPhase (900 / 3) (600 / 2) [posNode] = .ok ([posNode].map fun m =>
      { m with x := some (min (max (m.x.getD 0) 2) ((900 / 3) * 2 - 20)),
               y := some (min (max (m.y.getD 0) 2) ((600 / 2) * 2 - 20)) }) :=
  ⟨by simp [posNode], c8_amended 900 600 [posNode] (by simp [posNode])⟩

/-- C8 (counterexample): on a 900×600 scene a node at `x = 1000` is clamped
to `x = (900/3)*2 - 20 = 580`, not to `min (max 1000 2) (900*2 - 20) = 1000`
as the claim's bound `canvas_width*2 - 20` over the scene width would have
it. -/
theorem c8_counterexample :
    clampPhase (900 / 3) (600 / 2) [farNode] =
      .ok [⟨"F", some 1, none, none, 0, some 580, some 300, none, "#FFFFFF", 8⟩] ∧
    (580 : ℝ) ≠ min (max 1000 2) (900 * 2 - 20) := by
  constructor
  · norm_num [clampPhase, clampNode, farNode]
    rfl
  · norm_num

/-- C3 (counterexample): a single root node — group size `k = 1` — receives
the angle `(2π/1)·(1+1) = 4π`, which does not lie in `[0, 2π)` and differs
from the claimed formula value `(2π/1)·(0+1) = 2π`. -/
theorem c3_counterexample :
    ((anglePhase [soloRoot]).getD 0 default).angle = some (2 * π / 1 * (1 + 1)) ∧
    ¬(2 * π / 1 * (1 + 1) < 2 * π) ∧ (2 * π / 1 * (1 + 1) : ℝ) ≠ 2 * π / 1 * (0 + 1) := by
  refine ⟨?_, ?_, ?_⟩
  · simp [anglePhase, firstOccs, assignKeyAux, soloRoot]
  · have h4 : (2 * π / 1 * (1 + 1) : ℝ) = 4 * π := by ring
    rw [h4]
    intro hlt
    have := Real.pi_pos
    linarith
  · have h4 : (2 * π / 1 * (1 + 1) : ℝ) = 4 * π := by ring
    have h2 : (2 * π / 1 * (0 + 1) : ℝ) = 2 * π := by ring
    rw [h4, h2]
    intro heq
    have := Real.pi_pos
    linarith

/-- C9 (counterexample): two boxes with identical x spans (total overlap
along the x axis) anchor both x endpoints at the raw corner coordinate 0,
not at the box midpoints, because the midpoint tests require the opposing
corner to lie *strictly* inside the span. -/
theorem c9_counterexample :
    calculatePoints fromBoxC9 toBoxC9 = (0, 30, 0, 100) ∧
    (0 : ℝ) ≠ fromBoxC9.x + fromBoxC9.w / 2 := by
  constructor
  · norm_num [calculatePoints, fromBoxC9, toBoxC9]
  · norm_num [fromBoxC9]

/-- C9 (amended): midpoint anchoring happens only when the opposing corner
lies strictly inside the box's span on that axis (and the `to` test reads the
already-updated `from` coordinate); with the boxes strictly disjoint on an
axis, the endpoints anchor at the near edges facing each other, the unmoved
endpoint's raw corner being that box's near edge.  Representative case: the
`to` corner strictly inside the `from` x-span (but left of its midpoint) and
strictly below it in y gives the from-box x midpoint, the from-box bottom
edge, and the raw to corner. -/
theorem c9_amended (fromB toB : Box) (hfh : 0 ≤ fromB.h)
    (h1 : fromB.x < toB.x) (h2 : toB.x < fromB.x + fromB.w)
    (h3 : fromB.x + fromB.w / 2 ≤ toB.x) (h4 : fromB.y + fromB.h < toB.y) :
    calculatePoints fromB toB = (fromB.x + fromB.w / 2, fromB.y + fromB.h, toB.x, toB.y) := by
  have cx1 : toB.x > fromB.x ∧ toB.x < fromB.x + fromB.w := ⟨h1, h2⟩
  simp only [calculatePoints, if_pos cx1]
  have cx2 : ¬(fromB.x + fromB.w / 2 > toB.x ∧ fromB.x + fromB.w / 2 < toB.x + toB.w) :=
    fun hc => absurd hc.1 (not_lt.2 h3)
  simp only [if_neg cx2]
  have cxo : ¬¬((toB.x > fromB.x ∧ toB.x < fromB.x + fromB.w) ∨
      (fromB.x + fromB.w / 2 > toB.x ∧ fromB.x + fromB.w / 2 < toB.x + toB.w)) :=
    fun hn => hn (Or.inl cx1)
  have cx3 : ¬(¬((toB.x > fromB.x ∧ toB.x < fromB.x + fromB.w) ∨
      (fromB.x + fromB.w / 2 > toB.x ∧ fromB.x + fromB.w / 2 < toB.x + toB.w)) ∧
      toB.x > fromB.x + fromB.w / 2 + fromB.w) := fun hc => cxo hc.1
  simp only [if_neg cx3]
  have cx4 : ¬(¬((toB.x > fromB.x ∧ toB.x < fromB.x + fromB.w) ∨
      (fromB.x + fromB.w / 2 > toB.x ∧ fromB.x + fromB.w / 2 < toB.x + toB.w)) ∧
      fromB.x + fromB.w / 2 > toB.x + toB.w) := fun hc => cxo hc.1
  simp only [if_neg cx4]
  have cy1 : ¬(toB.y > fromB.y ∧ toB.y < fromB.y + fromB.h) :=
    fun hc => absurd hc.2 (not_lt.2 h4.le)
  simp only [if_neg cy1]
  have cy2 : ¬(fromB.y > toB.y ∧ fromB.y < toB.y + toB.h) :=
    fun hc => absurd hc.1 (not_lt.2 (by linarith))
  simp only [if_neg cy2]
  have cy3 : ¬((toB.y > fromB.y ∧ toB.y < fromB.y + fromB.h) ∨
      (fromB.y > toB.y ∧ fromB.y < toB.y + toB.h)) ∧ toB.y > fromB.y :=
    ⟨fun hor => hor.elim cy1 cy2, by linarith⟩
  simp only [if_pos cy3]

/-- Witness for C9: concrete boxes satisfying the interior and disjointness
hypotheses. -/
theorem c9_witness :
    (0 ≤ fromBoxW.h) ∧ (fromBoxW.x < toBoxW.x) ∧ (toBoxW.x < fromBoxW.x + fromBoxW.w) ∧
    (fromBoxW.x + fromBoxW.w / 2 ≤ toBoxW.x) ∧ (fromBoxW.y + fromBoxW.h < toBoxW.y) ∧
    calculatePoints fromBoxW toBoxW =
      (fromBoxW.x + fromBoxW.w / 2, fromBoxW.y + fromBoxW.h, toBoxW.x, toBoxW.y) :=
  ⟨by norm_num [fromBoxW], by norm_num [fromBoxW, toBoxW], by norm_num [fromBoxW, toBoxW],
    by norm_num [fromBoxW, toBoxW], by norm_num [fromBoxW, toBoxW],
    c9_amended fromBoxW toBoxW (by norm_num [fromBoxW]) (by norm_num [fromBoxW, toBoxW])
      (by norm_num [fromBoxW, toBoxW]) (by norm_num [fromBoxW, toBoxW])
      (by norm_num [fromBoxW, toBoxW])⟩

theorem cos_four_pi : Real.cos (4 * π) = 1 := by
  rw [show (4 : ℝ) * π = 2 * π + 2 * π by ring, Real.cos_add_two_pi, Real.cos_two_pi]

theorem sin_four_pi : Real.sin (4 * π) = 0 := by
  rw [show (4 : ℝ) * π = 2 * π + 2 * π by ring, Real.sin_add_two_pi, Real.sin_two_pi]

theorem cos_three_pi : Real.cos (3 * π) = -1 := by
  rw [show (3 : ℝ) * π = π + 2 * π by ring, Real.cos_add_two_pi, Real.cos_pi]

theorem sin_three_pi : Real.sin (3 * π) = 0 := by
  rw [show (3 : ℝ) * π = π + 2 * π by ring, Real.sin_add_two_pi, Real.sin_pi]

theorem range_three : List.range 3 = [0, 1, 2] := rfl

theorem range_four : List.range 4 = [0, 1, 2, 3] := rfl

theorem layoutLoop_exit (cx cy r rx : ℝ) (f : ℕ) (st st' : List Node)
    (h1 : layoutPass cx cy r rx st = st')
    (h2 : st'.any (fun m => m.x.isNone) = false) :
    layoutLoop cx cy r rx (f + 1) st = st' := by
  simp only [layoutLoop, h1, h2, Bool.false_eq_true, if_false, ite_false]

theorem chain_pass :
    layoutPass (900 / 3) (600 / 2) 180 ((900 / 3) / (600 / 2)) chainModel3 = chainRaw := by
  norm_num [layoutPass, positionNode, scanGo, assignStep, chainModel3, chainRaw,
    range_four, List.getD_cons_zero, List.getD_cons_succ, abs_sub_lt_iff,
    cos_four_pi, sin_four_pi]

theorem chain_angles :
    anglePhase
      [⟨"A", some 1, none, none, 0, none, none, none, "#FFFFFF", 8⟩,
       ⟨"B", some 2, some 1, none, 1, none, none, none, "#FFFFFF", 8⟩,
       ⟨"C", some 3, some 2, none, 2, none, none, none, "#FFFFFF", 8⟩,
       ⟨"D", some 4, some 3, none, 3, none, none, none, "#FFFFFF", 8⟩] = chainModel3 := by
  have h : anglePhase
      [⟨"A", some 1, none, none, 0, none, none, none, "#FFFFFF", 8⟩,
       ⟨"B", some 2, some 1, none, 1, none, none, none, "#FFFFFF", 8⟩,
       ⟨"C", some 3, some 2, none, 2, none, none, none, "#FFFFFF", 8⟩,
       ⟨"D", some 4, some 3, none, 3, none, none, none, "#FFFFFF", 8⟩] =
      [⟨"A", some 1, none, none, 0, none, none,
          some (2 * π / ((1 : ℕ) : ℝ) * (((1 : ℕ) : ℝ) + 1)), "#FFFFFF", 8⟩,
       ⟨"B", some 2, some 1, none, 1, none, none,
          some (2 * π / ((1 : ℕ) : ℝ) * (((1 : ℕ) : ℝ) + 1)), "#FFFFFF", 8⟩,
       ⟨"C", some 3, some 2, none, 2, none, none,
          some (2 * π / ((1 : ℕ) : ℝ) * (((1 : ℕ) : ℝ) + 1)), "#FFFFFF", 8⟩,
       ⟨"D", some 4, some 3, none, 3, none, none,
          some (2 * π / ((1 : ℕ) : ℝ) * (((1 : ℕ) : ℝ) + 1)), "#FFFFFF", 8⟩] := rfl
  rw [h]
  norm_num [chainModel3]
  ring

theorem chain_clamp :
    clampPhase (900 / 3) (600 / 2) chainRaw = .ok chainFinal := by
  norm_num [clampPhase, clampNode, chainRaw, chainFinal]
  rfl

theorem chain_eval : doGraph chainRows [] false false "All" 900 600 = .ok chainFinal := by
  have h1 : doGraph chainRows [] false false "All" 900 600 =
      clampPhase (900 / 3) (600 / 2) (layoutLoop (900 / 3) (600 / 2) 180 ((900 / 3) / (600 / 2)) 1000
        (anglePhase
          [⟨"A", some 1, none, none, 0, none, none, none, "#FFFFFF", 8⟩,
           ⟨"B", some 2, some 1, none, 1, none, none, none, "#FFFFFF", 8⟩,
           ⟨"C", some 3, some 2, none, 2, none, none, none, "#FFFFFF", 8⟩,
           ⟨"D", some 4, some 3, none, 3, none, none, none, "#FFFFFF", 8⟩])) := rfl
  rw [h1, chain_angles, show (1000 : ℕ) = 999 + 1 from rfl,
    layoutLoop_exit _ _ _ _ 999 _ _ chain_pass (by rfl), chain_clamp]

/-- C6 (counterexample): in the four-deep chain A → B → C → D on a 900×600
scene, the raw placement of D is `(621, 300)` against its parent C at
`(585, 300)` — differing by `(36, 0)`, which is *not* at least 20 on both
axes — and after the clamp both C and D sit at exactly `(580, 300)`: the
final position of the non-root node D differs from its parent's final
position by `(0, 0)`, far less than 20 on each axis. -/
theorem c6_counterexample :
    layoutLoop (900 / 3) (600 / 2) 180 ((900 / 3) / (600 / 2)) 1000 chainModel3 = chainRaw ∧
    clampPhase (900 / 3) (600 / 2) chainRaw = .ok chainFinal ∧
    doGraph chainRows [] false false "All" 900 600 = .ok chainFinal ∧
    ¬(20 ≤ |(621 : ℝ) - 585| ∧ 20 ≤ |(300 : ℝ) - 300|) ∧
    (chainFinal.getD 3 default).x = (chainFinal.getD 2 default).x ∧
    (chainFinal.getD 3 default).y = (chainFinal.getD 2 default).y ∧
    ¬(∀ v w : ℝ, (chainFinal.getD 3 default).x = some v →
        (chainFinal.getD 2 default).x = some w → 20 ≤ |v - w|) := by
  refine ⟨?_, chain_clamp, chain_eval, ?_, rfl, rfl, ?_⟩
  · rw [show (1000 : ℕ) = 999 + 1 from rfl]
    exact layoutLoop_exit _ _ _ _ 999 _ _ chain_pass (by rfl)
  · rintro ⟨-, habs⟩
    rw [show |(300 : ℝ) - 300| = 0 by norm_num] at habs
    linarith
  · intro hall
    have := hall 580 580 rfl rfl
    rw [show |(580 : ℝ) - 580| = 0 by norm_num] at this
    linarith

theorem c4_angles :
    anglePhase
      [⟨"Health", some 1, none, none, 0, none, none, none, "#FFFFFF", 8⟩,
       ⟨"Diet", some 1, some 1, some 10, 1, none, none, none, "#FF0000", 8⟩,
       ⟨"Exercise", some 1, some 1, some 11, 1, none, none, none, "#00FF00", 8⟩] =
      [⟨"Health", some 1, none, none, 0, none, none, some (4 * π), "#FFFFFF", 8⟩,
       ⟨"Diet", some 1, some 1, some 10, 1, none, none, some (2 * π), "#FF0000", 8⟩,
       ⟨"Exercise", some 1, some 1, some 11, 1, none, none, some (3 * π), "#00FF00", 8⟩] := by
  have h : anglePhase
      [⟨"Health", some 1, none, none, 0, none, none, none, "#FFFFFF", 8⟩,
       ⟨"Diet", some 1, some 1, some 10, 1, none, none, none, "#FF0000", 8⟩,
       ⟨"Exercise", some 1, some 1, some 11, 1, none, none, none, "#00FF00", 8⟩] =
      [⟨"Health", some 1, none, none, 0, none, none,
          some (2 * π / ((1 : ℕ) : ℝ) * (((1 : ℕ) : ℝ) + 1)), "#FFFFFF", 8⟩,
       ⟨"Diet", some 1, some 1, some 10, 1, none, none,
          some (2 * π / ((2 : ℕ) : ℝ) * (((1 : ℕ) : ℝ) + 1)), "#FF0000", 8⟩,
       ⟨"Exercise", some 1, some 1, some 11, 1, none, none,
          some (2 * π / ((2 : ℕ) : ℝ) * (((2 : ℕ) : ℝ) + 1)), "#00FF00", 8⟩] := rfl
  rw [h]
  norm_num
  constructor
  · ring
  constructor
  · ring
  · ring

theorem c4_pass :
    layoutPass (900 / 3) (600 / 2) 180 ((900 / 3) / (600 / 2))
      [⟨"Health", some 1, none, none, 0, none, none, some (4 * π), "#FFFFFF", 8⟩,
       ⟨"Diet", some 1, some 1, some 10, 1, none, none, some (2 * π), "#FF0000", 8⟩,
       ⟨"Exercise", some 1, some 1, some 11, 1, none, none, some (3 * π), "#00FF00", 8⟩] =
      [⟨"Health", some 1, none, none, 0, some 480, some 300, some (4 * π), "#FFFFFF", 8⟩,
       ⟨"Diet", some 1, some 1, some 10, 1, some 620, some 320, some (2 * π), "#FF0000", 8⟩,
       ⟨"Exercise", some 1, some 1, some 11, 1, some 520, some 340, some (3 * π), "#00FF00", 8⟩] := by
  norm_num [layoutPass, positionNode, scanGo, assignStep, range_three,
    List.getD_cons_zero, List.getD_cons_succ, abs_sub_lt_iff,
    cos_four_pi, sin_four_pi, Real.cos_two_pi, Real.sin_two_pi, cos_three_pi, sin_three_pi]

theorem c4_clamp :
    clampPhase (900 / 3) (600 / 2)
      [⟨"Health", some 1, none, none, 0, some 480, some 300, some (4 * π), "#FFFFFF", 8⟩,
       ⟨"Diet", some 1, some 1, some 10, 1, some 620, some 320, some (2 * π), "#FF0000", 8⟩,
       ⟨"Exercise", some 1, some 1, some 11, 1, some 520, some 340, some (3 * π), "#00FF00", 8⟩] =
      .ok [healthFinal, dietFinal, exerciseFinal] := by
  norm_num [clampPhase, clampNode, healthFinal, dietFinal, exerciseFinal]
  rfl

theorem c4_eval :
    doGraph [healthRow] [dietRow, exerciseRow] false false "All" 900 600 =
      .ok [healthFinal, dietFinal, exerciseFinal] := by
  have h1 : doGraph [healthRow] [dietRow, exerciseRow] false false "All" 900 600 =
      clampPhase (900 / 3) (600 / 2) (layoutLoop (900 / 3) (600 / 2) 180 ((900 / 3) / (600 / 2)) 1000
        (anglePhase
          [⟨"Health", some 1, none, none, 0, none, none, none, "#FFFFFF", 8⟩,
           ⟨"Diet", some 1, some 1, some 10, 1, none, none, none, "#FF0000", 8⟩,
           ⟨"Exercise", some 1, some 1, some 11, 1, none, none, none, "#00FF00", 8⟩])) := rfl
  rw [h1, c4_angles, show (1000 : ℕ) = 999 + 1 from rfl,
    layoutLoop_exit _ _ _ _ 999 _ _ c4_pass (by rfl), c4_clamp]

/-- C4 (counterexample): in the Health/Diet/Exercise scenario on a 900×600
canvas the root is placed at `(480, 300)` — on the radius-180 circle around
the centre `(300, 300)`, not at `(300, 300)` itself — and the x stretch
factor is `(900/3)/(600/2) = 1`, not 1.5. -/
theorem c4_counterexample :
    doGraph [healthRow] [dietRow, exerciseRow] false false "All" 900 600 =
      .ok [healthFinal, dietFinal, exerciseFinal] ∧
    healthFinal.x = some 480 ∧ (480 : ℝ) ≠ 300 ∧
    ((900 : ℝ) / 3) / (600 / 2) = 1 ∧ (1 : ℝ) ≠ 1.5 :=
  ⟨c4_eval, rfl, by norm_num, by norm_num, by norm_num⟩

/-- C4 (amended): in the Health/Diet/Exercise scenario on a 900×600 canvas
the root "Health" lands at `(480, 300)`; the children get the distinct angles
`2π` and `3π` (π apart); the per-step radius is `180/(1+2) = 60` with
x stretch 1, but the scan has no `break` and revisits the code itself
(`supercatid == catid`), so each child is re-placed from its own fresh
position and force-nudged by `(+20, +20)`; after the clamp Diet sits at
`(580, 320)` and Exercise at `(520, 340)`, and neither child is within 20 of
the root on both axes. -/
theorem c4_amended :
    doGraph [healthRow] [dietRow, exerciseRow] false false "All" 900 600 =
      .ok [healthFinal, dietFinal, exerciseFinal] ∧
    dietFinal.angle = some (2 * π) ∧ exerciseFinal.angle = some (3 * π) ∧
    3 * π - 2 * π = π ∧
    ¬(|(480 : ℝ) - 580| < 20 ∧ |(300 : ℝ) - 320| < 20) ∧
    ¬(|(480 : ℝ) - 520| < 20 ∧ |(300 : ℝ) - 340| < 20) := by
  refine ⟨c4_eval, rfl, rfl, by ring, ?_, ?_⟩
  · rintro ⟨h1, -⟩
    rw [abs_sub_lt_iff] at h1
    linarith [h1.2]
  · rintro ⟨h1, -⟩
    rw [abs_sub_lt_iff] at h1
    linarith [h1.2]

theorem count_map_supercatid (model : List Node) (key : Option ℕ) :
    (model.map (·.supercatid)).count key =
      (model.filter fun m => m.supercatid == key).length := by
  induction model with
  | nil => rfl
  | cons m rest ih =>
    simp only [List.map_cons, List.count_cons, List.filter_cons, ih]
    by_cases hm : m.supercatid = key
    · simp [hm]
    · have h1 : (m.supercatid == key) = false := beq_eq_false_iff_ne.mpr hm
      simp [h1, beq_eq_false_iff_ne.mpr (Ne.symm hm)]

theorem firstOccsAux_spec (l : List (Option ℕ)) :
    ∀ acc : List (Option ℕ), acc.Nodup →
      (List.foldl (fun acc a => if a ∈ acc then acc else acc ++ [a]) acc l).Nodup ∧
      ∀ a, a ∈ List.foldl (fun acc a => if a ∈ acc then acc else acc ++ [a]) acc l ↔
        (a ∈ acc ∨ a ∈ l) := by
  induction l with
  | nil => intro acc hacc; simpa using hacc
  | cons b rest ih =>
    intro acc hacc
    simp only [List.foldl_cons]
    by_cases hb : b ∈ acc
    · rw [if_pos hb]
      obtain ⟨h1, h2⟩ := ih acc hacc
      refine ⟨h1, fun a => ?_⟩
      rw [h2]
      constructor
      · rintro (ha | ha)
        · exact Or.inl ha
        · exact Or.inr (List.mem_cons_of_mem b ha)
      · rintro (ha | ha)
        · exact Or.inl ha
        · rcases List.mem_cons.mp ha with rfl | ha
          · exact Or.inl hb
          · exact Or.inr ha
    · rw [if_neg hb]
      have hacc' : (acc ++ [b]).Nodup := by
        rw [List.nodup_append]
        exact ⟨hacc, List.nodup_singleton b, by simpa using hb⟩
      obtain ⟨h1, h2⟩ := ih (acc ++ [b]) hacc'
      refine ⟨h1, fun a => ?_⟩
      rw [h2]
      simp only [List.mem_append, List.mem_singleton, List.mem_cons]
      tauto

theorem firstOccs_nodup (l : List (Option ℕ)) : (firstOccs l).Nodup :=
  (firstOccsAux_spec l [] List.nodup_nil).1

theorem mem_firstOccs (l : List (Option ℕ)) (a : Option ℕ) :
    a ∈ firstOccs l ↔ a ∈ l := by
  rw [firstOccs, (firstOccsAux_spec l [] List.nodup_nil).2 a]
  simp

theorem assignKeyAux_group (key : Option ℕ) (cnt : ℕ) :
    ∀ (l : List Node) (seg : ℕ), (∀ m ∈ l, m.supercatid = key → m.angle = none) →
      ((assignKeyAux key cnt seg l).filter fun m => m.supercatid == key).map (fun m => m.angle) =
        (List.range (l.filter fun m => m.supercatid == key).length).map
          (fun i => some (2 * π / (cnt : ℝ) * (((seg + i : ℕ) : ℝ) + 1))) := by
  intro l
  induction l with
  | nil => intro seg _; rfl
  | cons m rest ih =>
    intro seg h
    by_cases hm : m.supercatid = key
    · have hang : m.angle = none := h m (List.mem_cons_self m rest) hm
      have hcond : (m.angle.isNone && (m.supercatid == key)) = true := by
        rw [hang, hm]
        simp
      have hhead : ({ m with angle := some (2 * π / (cnt : ℝ) * ((seg : ℝ) + 1)) }.supercatid
          == key) = true := by
        simpa using hm
      simp only [assignKeyAux]
      rw [hcond]
      simp only [eq_self_iff_true, if_true, List.filter_cons, hhead, List.map_cons]
      rw [ih (seg + 1) (fun p hp hps => h p (List.mem_cons_of_mem m hp) hps)]
      rw [List.length_cons, List.range_succ_eq_map, List.map_cons, List.map_map]
      congr 1
      refine List.map_congr_left fun i _ => ?_
      rw [Function.comp_apply]
      have hseg : seg + 1 + i = seg + Nat.succ i := by omega
      rw [hseg]
    · have hf : (m.supercatid == key) = false := beq_eq_false_iff_ne.mpr hm
      have hcond : (m.angle.isNone && (m.supercatid == key)) = false := by
        rw [hf, Bool.and_false]
      simp only [assignKeyAux]
      rw [hcond]
      simp only [Bool.false_eq_true, if_false, List.filter_cons, hf]
      exact ih seg fun p hp hps => h p (List.mem_cons_of_mem m hp) hps

theorem assignKeyAux_other (key key' : Option ℕ) (cnt : ℕ) (hne : key' ≠ key) :
    ∀ (l : List Node) (seg : ℕ),
      (assignKeyAux key' cnt seg l).filter (fun m => m.supercatid == key) =
        l.filter fun m => m.supercatid == key := by
  intro l
  induction l with
  | nil => intro _; rfl
  | cons m rest ih =>
    intro seg
    by_cases hc : (m.angle.isNone && (m.supercatid == key')) = true
    · have hsup : m.supercatid = key' := by
        have hc2 := hc
        rw [Bool.and_eq_true] at hc2
        exact eq_of_beq hc2.2
      have hf : (m.supercatid == key) = false :=
        beq_eq_false_iff_ne.mpr (by rw [hsup]; exact hne)
      have hf' : ({ m with angle := some (2 * π / (cnt : ℝ) * ((seg : ℝ) + 1)) }.supercatid
          == key) = false := by simpa using hf
      simp only [assignKeyAux]
      rw [hc]
      simp only [eq_self_iff_true, if_true, List.filter_cons, hf, hf', Bool.false_eq_true,
        if_false]
      exact ih (seg + 1)
    · have hc' : (m.angle.isNone && (m.supercatid == key')) = false :=
        Bool.not_eq_true _ |>.mp hc
      simp only [assignKeyAux]
      rw [hc']
      simp only [Bool.false_eq_true, if_false, List.filter_cons]
      by_cases hk : (m.supercatid == key) = true
      · simp only [hk, if_true, ih seg]
      · simp only [Bool.not_eq_true _ |>.mp hk, Bool.false_eq_true, if_false, ih seg]

theorem foldl_other_keys (key : Option ℕ) (scl : List (Option ℕ)) :
    ∀ (ks : List (Option ℕ)) (st : List Node), key ∉ ks →
      ((ks.foldl (fun st k' => assignKeyAux k' (scl.count k') 1 st) st).filter
        fun m => m.supercatid == key) = st.filter fun m => m.supercatid == key := by
  intro ks
  induction ks with
  | nil => intro st _; rfl
  | cons k' rest ih =>
    intro st h
    rw [List.foldl_cons, ih _ fun hm => h (List.mem_cons_of_mem _ hm),
      assignKeyAux_other key k' _ (fun he => h (he ▸ List.mem_cons_self k' rest))]

/-- C3 (amended): starting from a model whose angles are all unassigned, the
angle phase gives the members of each parent group (nodes sharing one
`supercatid`, the root nodes forming the group of the synthetic parent
`None`) pairwise distinct angles following the formula
`θ_i = (2π / k) * (i + 2)` for `i` in `[0, k)` in model order, where `k` is
the group size — the `segment` counter starts at 1 and is incremented after
use, so the multipliers run from 2 to `k + 1`, and each angle lies in
`(0, 2π·(k+1)/k]`, not in `[0, 2π)`. -/
theorem c3_amended (model : List Node) (key : Option ℕ)
    (hall : ∀ m ∈ model, m.angle = none)
    (hk : 0 < (model.filter fun m => m.supercatid == key).length) :
    ((((anglePhase model).filter fun m => m.supercatid == key).map fun m => m.angle) =
      (List.range (model.filter fun m => m.supercatid == key).length).map fun i : ℕ =>
        some (2 * π / ((model.filter fun m => m.supercatid == key).length : ℝ) *
          ((i : ℝ) + 2))) ∧
    ((((anglePhase model).filter fun m => m.supercatid == key).map fun m => m.angle).Nodup) ∧
    (∀ a : ℝ,
      some a ∈ (((anglePhase model).filter fun m => m.supercatid == key).map fun m => m.angle) →
      0 < a ∧ a ≤ 2 * π * (((model.filter fun m => m.supercatid == key).length : ℝ) + 1) /
        ((model.filter fun m => m.supercatid == key).length : ℝ)) := by
  have hmem : ∃ mm ∈ model, mm.supercatid = key := by
    have hne : (model.filter fun m => m.supercatid == key) ≠ [] := by
      intro hnil
      rw [hnil] at hk
      simp at hk
    obtain ⟨mm, hmm⟩ := List.exists_mem_of_ne_nil _ hne
    have hmf := List.mem_filter.mp hmm
    exact ⟨mm, hmf.1, by simpa using hmf.2⟩
  obtain ⟨mm, hmmmem, hmmsup⟩ := hmem
  have hkeymem : key ∈ firstOccs (model.map fun m => m.supercatid) := by
    rw [mem_firstOccs]
    exact List.mem_map.mpr ⟨mm, hmmmem, hmmsup⟩
  obtain ⟨s, t, hst⟩ := List.append_of_mem hkeymem
  have hnd := firstOccs_nodup (model.map fun m => m.supercatid)
  rw [hst, List.nodup_append] at hnd
  obtain ⟨-, hnd2, hdisj⟩ := hnd
  have hks : key ∉ s := fun hmem' => hdisj hmem' (List.mem_cons_self key t)
  have hkt : key ∉ t := (List.nodup_cons.mp hnd2).1
  have hst1 := foldl_other_keys key (model.map fun m => m.supercatid) s model hks
  have hmain : (((anglePhase model).filter fun m => m.supercatid == key).map fun m => m.angle) =
      (List.range (model.filter fun m => m.supercatid == key).length).map fun i : ℕ =>
        some (2 * π / ((model.filter fun m => m.supercatid == key).length : ℝ) *
          ((i : ℝ) + 2)) := by
    simp only [anglePhase]
    rw [hst, List.foldl_append, List.foldl_cons, foldl_other_keys key _ t _ hkt]
    have hall1 : ∀ p ∈ List.foldl
        (fun st k' => assignKeyAux k' ((model.map fun m => m.supercatid).count k') 1 st)
        model s, p.supercatid = key → p.angle = none := by
      intro p hp hps
      have hpf : p ∈ (List.foldl
          (fun st k' => assignKeyAux k' ((model.map fun m => m.supercatid).count k') 1 st)
          model s).filter (fun m => m.supercatid == key) :=
        List.mem_filter.mpr ⟨hp, by simpa using hps⟩
      rw [hst1] at hpf
      exact hall p (List.mem_filter.mp hpf).1
    rw [assignKeyAux_group key _ _ 1 hall1, congrArg List.length hst1, count_map_supercatid]
    refine List.map_congr_left fun i _ => ?_
    have hcast : (((1 + i : ℕ)) : ℝ) + 1 = (i : ℝ) + 2 := by
      push_cast
      ring
    rw [hcast]
  have hc : 0 < 2 * π / ((model.filter fun m => m.supercatid == key).length : ℝ) := by
    apply div_pos
    · positivity
    · exact_mod_cast hk
  refine ⟨hmain, ?_, ?_⟩
  · rw [hmain]
    refine List.Nodup.map ?_ (List.nodup_range _)
    intro i j hij
    simp only [Option.some.injEq] at hij
    have hij2 := mul_left_cancel₀ (ne_of_gt hc) hij
    have : (i : ℝ) = j := by linarith
    exact_mod_cast this
  · intro a ha
    rw [hmain] at ha
    obtain ⟨i, hi, hval⟩ := List.mem_map.mp ha
    rw [List.mem_range] at hi
    simp only [Option.some.injEq] at hval
    have hub : (i : ℝ) + 2 ≤ ((model.filter fun m => m.supercatid == key).length : ℝ) + 1 := by
      have : (i : ℝ) + 1 ≤ ((model.filter fun m => m.supercatid == key).length : ℝ) := by
        exact_mod_cast Nat.succ_le_of_lt hi
      linarith
    constructor
    · rw [← hval]
      have : (0 : ℝ) < (i : ℝ) + 2 := by positivity
      exact mul_pos hc this
    · rw [← hval]
      calc 2 * π / ((model.filter fun m => m.supercatid == key).length : ℝ) * ((i : ℝ) + 2) ≤
            2 * π / ((model.filter fun m => m.supercatid == key).length : ℝ) *
              (((model.filter fun m => m.supercatid == key).length : ℝ) + 1) :=
          mul_le_mul_of_nonneg_left hub hc.le
        _ = 2 * π * (((model.filter fun m => m.supercatid == key).length : ℝ) + 1) /
              ((model.filter fun m => m.supercatid == key).length : ℝ) := by
          ring

/-- Witness for C3: the single root node group, `k = 1`, gets the one angle
`(2π/1)·2 = 4π`. -/
theorem c3_witness :
    (∀ m ∈ [soloRoot], m.angle = none) ∧
    (0 < ([soloRoot].filter fun m => m.supercatid == (none : Option ℕ)).length) ∧
    (((((anglePhase [soloRoot]).filter fun m => m.supercatid == (none : Option ℕ)).map
          fun m => m.angle) =
        (List.range ([soloRoot].filter fun m => m.supercatid == (none : Option ℕ)).length).map
          fun i : ℕ =>
            some (2 * π /
              (([soloRoot].filter fun m => m.supercatid == (none : Option ℕ)).length : ℝ) *
              ((i : ℝ) + 2))) ∧
      ((((anglePhase [soloRoot]).filter fun m => m.supercatid == (none : Option ℕ)).map
          fun m => m.angle).Nodup) ∧
      (∀ a : ℝ,
        some a ∈ (((anglePhase [soloRoot]).filter fun m => m.supercatid == (none : Option ℕ)).map
          fun m => m.angle) →
        0 < a ∧ a ≤ 2 * π *
          ((([soloRoot].filter fun m => m.supercatid == (none : Option ℕ)).length : ℝ) + 1) /
          (([soloRoot].filter fun m => m.supercatid == (none : Option ℕ)).length : ℝ))) :=
  ⟨fun m hm => by rw [List.mem_singleton] at hm; rw [hm]; rfl,
   by decide,
   c3_amended [soloRoot] none
     (fun m hm => by rw [List.mem_singleton] at hm; rw [hm]; rfl)
     (by decide)⟩

theorem depthLoopF_none (cats : List Node) : ∀ (f d : ℕ), depthLoopF cats f none d = some d := by
  intro f d
  cases f <;> simp [depthLoopF]

theorem catChainResolves_mono (cats : List Node) :
    ∀ (f : ℕ) (sc : Option ℕ), catChainResolves cats f sc = true →
      catChainResolves cats (f + 1) sc = true := by
  intro f
  induction f with
  | zero =>
    intro sc h
    cases sc with
    | none => rfl
    | some k => simp [catChainResolves] at h
  | succ n ih =>
    intro sc h
    cases sc with
    | none => rfl
    | some k =>
      rw [catChainResolves] at h ⊢
      cases hf : cats.find? (fun s => s.catid == some k) with
      | none => rw [hf] at h; exact Bool.noConfusion h
      | some s => rw [hf] at h; exact ih _ h

theorem find_cat_unique (cats : List Node) (hnd : (cats.map fun s => s.catid).Nodup) :
    ∀ (s0 : Node), s0 ∈ cats → ∀ (k : ℕ), s0.catid = some k →
      cats.find? (fun s => s.catid == some k) = some s0 := by
  induction cats with
  | nil => intro s0 h; exact absurd h (List.not_mem_nil s0)
  | cons c rest ih =>
    intro s0 hs0 k hk
    rw [List.map_cons, List.nodup_cons] at hnd
    by_cases hc : (c.catid == some k) = true
    · have hceq : c.catid = some k := eq_of_beq hc
      rw [List.find?_cons, hc]
      rcases List.mem_cons.mp hs0 with rfl | hs0r
      · rfl
      · exfalso
        exact hnd.1 (hceq ▸ hk ▸ List.mem_map.mpr ⟨s0, hs0r, rfl⟩)
    · have hcf : (c.catid == some k) = false := Bool.not_eq_true _ |>.mp hc
      rw [List.find?_cons, hcf]
      rcases List.mem_cons.mp hs0 with rfl | hs0r
      · exact absurd (by simpa using hk) hc
      · exact ih hnd.2 s0 hs0r k hk

theorem find?_split {p : Node → Bool} :
    ∀ {l : List Node} {s : Node}, l.find? p = some s →
      ∃ l1 l2, l = l1 ++ s :: l2 ∧ ∀ a ∈ l1, p a = false := by
  intro l
  induction l with
  | nil => intro s h; simp [List.find?] at h
  | cons c rest ih =>
    intro s h
    by_cases hp : p c = true
    · rw [List.find?_cons, hp, Option.some.injEq] at h
      exact ⟨[], rest, by simp [h], by simp⟩
    · have hpf : p c = false := Bool.not_eq_true _ |>.mp hp
      rw [List.find?_cons, hpf] at h
      obtain ⟨l1, l2, hsplit, hall⟩ := ih h
      refine ⟨c :: l1, l2, by rw [hsplit, List.cons_append], ?_⟩
      intro a ha
      rcases List.mem_cons.mp ha with rfl | ha2
      · exact hpf
      · exact hall a ha2

theorem depthSweep_skip (k : ℕ) :
    ∀ (l : List Node) (d : ℕ), (∀ a ∈ l, (a.catid == some k) = false) →
      l.foldl (fun q s => if q.1 = s.catid then (s.supercatid, q.2 + 1) else q)
        ((some k : Option ℕ), d) = (some k, d) := by
  intro l
  induction l with
  | nil => intro d _; rfl
  | cons a rest ih =>
    intro d h
    rw [List.foldl_cons]
    have hne : ((some k : Option ℕ), d).1 ≠ a.catid := by
      intro hcontra
      have := h a (List.mem_cons_self a rest)
      rw [beq_eq_false_iff_ne] at this
      exact this hcontra.symm
    rw [if_neg hne]
    exact ih d fun b hb => h b (List.mem_cons_of_mem a hb)

theorem foldl_chain_pres (cats : List Node) (hnd : (cats.map fun s => s.catid).Nodup)
    (hcats : ∀ s ∈ cats, s.catid.isSome) (F : ℕ) :
    ∀ (l : List Node), (∀ a ∈ l, a ∈ cats) → ∀ (q : Option ℕ × ℕ),
      catChainResolves cats F q.1 = true →
      catChainResolves cats F
        (l.foldl (fun q s => if q.1 = s.catid then (s.supercatid, q.2 + 1) else q) q).1 =
        true := by
  intro l
  induction l with
  | nil => intro _ q hq; exact hq
  | cons a rest ih =>
    intro hmem q hq
    rw [List.foldl_cons]
    by_cases hcase : q.1 = a.catid
    · obtain ⟨k', hk'⟩ := Option.isSome_iff_exists.mp (hcats a (hmem a (List.mem_cons_self a rest)))
      rw [if_pos hcase]
      refine ih (fun b hb => hmem b (List.mem_cons_of_mem a hb)) _ ?_
      cases F with
      | zero =>
        rw [hcase, hk'] at hq
        simp [catChainResolves] at hq
      | succ n =>
        rw [hcase, hk'] at hq
        rw [catChainResolves, find_cat_unique cats hnd a (hmem a (List.mem_cons_self a rest))
          k' hk'] at hq
        exact catChainResolves_mono cats n _ hq
    · rw [if_neg hcase]
      exact ih (fun b hb => hmem b (List.mem_cons_of_mem a hb)) q hq

theorem depthSweep_progress (cats : List Node) (hnd : (cats.map fun s => s.catid).Nodup)
    (hcats : ∀ s ∈ cats, s.catid.isSome) (f : ℕ) (k : ℕ) (d : ℕ)
    (h : catChainResolves cats (f + 1) (some k) = true) :
    catChainResolves cats f (depthSweep cats (some k, d)).1 = true := by
  rw [catChainResolves] at h
  cases hf : cats.find? (fun s => s.catid == some k) with
  | none => rw [hf] at h; exact Bool.noConfusion h
  | some s =>
    rw [hf] at h
    obtain ⟨l1, l2, hsplit, hall⟩ := find?_split hf
    have hps := List.find?_some hf
    have hscat : s.catid = some k := eq_of_beq (by simpa using hps)
    subst hsplit
    rw [depthSweep, List.foldl_append, List.foldl_cons, depthSweep_skip k l1 d hall,
      if_pos (show (((some k : Option ℕ), d) : Option ℕ × ℕ).1 = s.catid from hscat.symm)]
    refine foldl_chain_pres (l1 ++ s :: l2) hnd hcats f l2 ?_ _ h
    intro b hb
    exact List.mem_append.mpr (Or.inr (List.mem_cons_of_mem s hb))

theorem depthLoopF_terminates (cats : List Node) (hnd : (cats.map fun s => s.catid).Nodup)
    (hcats : ∀ s ∈ cats, s.catid.isSome) :
    ∀ (f g : ℕ), f ≤ g → ∀ (sc : Option ℕ) (d : ℕ),
      catChainResolves cats f sc = true → (depthLoopF cats g sc d).isSome := by
  intro f
  induction f with
  | zero =>
    intro g _ sc d h
    cases sc with
    | none => rw [depthLoopF_none]; rfl
    | some k => simp [catChainResolves] at h
  | succ n ih =>
    intro g hg sc d h
    cases sc with
    | none => rw [depthLoopF_none]; rfl
    | some k =>
      obtain ⟨g', rfl⟩ : ∃ g', g = g' + 1 := ⟨g - 1, by omega⟩
      rw [depthLoopF, if_neg (by simp)]
      exact ih g' (by omega) _ _ (depthSweep_progress cats hnd hcats n k d h)

/-- C2 (amended): the depth loop walks the full category list, so it
terminates — within the embedded fuel — for every node whose `supercatid`
chain resolves through the categories (distinct, non-null `catid`s) to `None`
within `cats.length` hops, and a node whose `supercatid` is `None` keeps
depth 0.  A node whose parent lies outside the *selected set* but inside the
category list gets its full-hierarchy depth instead of 0 (see the C2
counterexample), and an unresolvable non-`None` chain makes the Python loop
spin forever. -/
theorem c2_amended (cats : List Node)
    (hnd : (cats.map fun s => s.catid).Nodup)
    (hcats : ∀ s ∈ cats, s.catid.isSome)
    (sc : Option ℕ)
    (h : catChainResolves cats cats.length sc = true) :
    (nodeDepth cats sc).isSome ∧ (sc = none → nodeDepth cats sc = some 0) := by
  constructor
  · exact depthLoopF_terminates cats hnd hcats cats.length (cats.length + 1) (by omega) sc 0 h
  · rintro rfl
    exact depthLoopF_none cats (cats.length + 1) 0

/-- Witness for C2: the two-category list A ← B, chain of B's parent
reference resolving in 2 hops. -/
theorem c2_witness :
    ((abCats.map fun s => s.catid).Nodup) ∧ (∀ s ∈ abCats, s.catid.isSome) ∧
    catChainResolves abCats abCats.length (some 2) = true ∧
    ((nodeDepth abCats (some 2)).isSome ∧
      ((some 2 : Option ℕ) = none → nodeDepth abCats (some 2) = some 0)) :=
  ⟨by decide, by decide, by decide,
    c2_amended abCats (by decide) (by decide) (some 2) (by decide)⟩

theorem getD_set_self (v : Node) : ∀ (l : List Node) (i : ℕ), i < l.length →
    (l.set i v).getD i default = v := by
  intro l
  induction l with
  | nil => intro i hi; simp at hi
  | cons a rest ih =>
    intro i hi
    cases i with
    | zero => rfl
    | succ n =>
      rw [List.set_cons_succ, List.getD_cons_succ]
      exact ih n (by simpa using hi)

theorem getD_set_other (v : Node) : ∀ (l : List Node) (i j : ℕ), i ≠ j →
    (l.set i v).getD j default = l.getD j default := by
  intro l
  induction l with
  | nil => intro i j _; simp [List.set]
  | cons a rest ih =>
    intro i j hij
    cases i with
    | zero =>
      cases j with
      | zero => exact absurd rfl hij
      | succ n => rfl
    | succ n =>
      cases j with
      | zero => rfl
      | succ p =>
        rw [List.set_cons_succ, List.getD_cons_succ, List.getD_cons_succ]
        exact ih n p (by omega)

theorem mem_of_getD (l : List Node) (j : ℕ) (hj : j < l.length) :
    l.getD j default ∈ l := by
  rw [List.getD_eq_getElem l default hj]
  exact List.getElem_mem hj

theorem getD_of_mem (l : List Node) (p : Node) (hp : p ∈ l) :
    ∃ j, j < l.length ∧ l.getD j default = p := by
  obtain ⟨i, hi, heq⟩ := List.mem_iff_getElem.mp hp
  exact ⟨i, hi, by rw [List.getD_eq_getElem l default hi, heq]⟩

theorem isSome_of_not_isNone {o : Option ℝ} (h : ¬ o.isNone = true) : o.isSome = true := by
  cases o with
  | none => exact absurd rfl h
  | some v => rfl

theorem scanGo_skel (r rx : ℝ) (st : List Node) (i : ℕ) (cur : Node) (j : ℕ) :
    (scanGo r rx st i cur j).catid = cur.catid ∧
    (scanGo r rx st i cur j).supercatid = cur.supercatid := by
  constructor <;> (simp only [scanGo]; split <;> split) <;> rfl

theorem scanGo_mono (r rx : ℝ) (st : List Node) (i : ℕ) (cur : Node) (j : ℕ)
    (h : cur.x.isSome) : (scanGo r rx st i cur j).x.isSome := by
  simp only [scanGo]
  split <;> split <;> first | rfl | exact h

theorem scanGo_xy (r rx : ℝ) (st : List Node) (i : ℕ) (cur : Node) (j : ℕ)
    (h : cur.x.isSome → cur.y.isSome) :
    (scanGo r rx st i cur j).x.isSome → (scanGo r rx st i cur j).y.isSome := by
  simp only [scanGo]
  split <;> split <;> first | (intro _; rfl) | exact h

theorem scanFold_skel (r rx : ℝ) (st : List Node) (i : ℕ) :
    ∀ (L : List ℕ) (cur : Node),
      ((L.foldl (scanGo r rx st i) cur).catid = cur.catid ∧
       (L.foldl (scanGo r rx st i) cur).supercatid = cur.supercatid) := by
  intro L
  induction L with
  | nil => intro cur; exact ⟨rfl, rfl⟩
  | cons j L' ih =>
    intro cur
    rw [List.foldl_cons]
    obtain ⟨h1, h2⟩ := ih (scanGo r rx st i cur j)
    obtain ⟨g1, g2⟩ := scanGo_skel r rx st i cur j
    exact ⟨h1.trans g1, h2.trans g2⟩

theorem scanFold_mono (r rx : ℝ) (st : List Node) (i : ℕ) :
    ∀ (L : List ℕ) (cur : Node), cur.x.isSome →
      (L.foldl (scanGo r rx st i) cur).x.isSome := by
  intro L
  induction L with
  | nil => intro cur h; exact h
  | cons j L' ih =>
    intro cur h
    rw [List.foldl_cons]
    exact ih _ (scanGo_mono r rx st i cur j h)

theorem scanFold_xy (r rx : ℝ) (st : List Node) (i : ℕ) :
    ∀ (L : List ℕ) (cur : Node), (cur.x.isSome → cur.y.isSome) →
      (L.foldl (scanGo r rx st i) cur).x.isSome →
      (L.foldl (scanGo r rx st i) cur).y.isSome := by
  intro L
  induction L with
  | nil => intro cur h; exact h
  | cons j L' ih =>
    intro cur h
    rw [List.foldl_cons]
    exact ih _ (scanGo_xy r rx st i cur j h)

theorem scanFold_assigns (r rx : ℝ) (st : List Node) (i : ℕ) (k : ℕ) (jp : ℕ)
    (hjpi : jp ≠ i)
    (hcat : (st.getD jp default).catid = some k)
    (hx : (st.getD jp default).x.isSome) :
    ∀ (L : List ℕ) (cur : Node), jp ∈ L → cur.supercatid = some k →
      (L.foldl (scanGo r rx st i) cur).x.isSome := by
  intro L
  induction L with
  | nil => intro cur h; exact absurd h (List.not_mem_nil jp)
  | cons j L' ih =>
    intro cur hmem hsup
    rw [List.foldl_cons]
    rcases List.mem_cons.mp hmem with rfl | hmem'
    · refine scanFold_mono r rx st i L' _ ?_
      have hcond : ((if jp == i then cur else st.getD jp default).catid == cur.supercatid &&
          (if jp == i then cur else st.getD jp default).x.isSome) = true := by
        rw [if_neg (by simpa using hjpi), hcat, hsup]
        simp only [beq_self_eq_true, Bool.true_and]
        exact hx
      simp only [scanGo, hcond, eq_self_iff_true, if_true]
      rfl
    · refine ih (scanGo r rx st i cur j) hmem' ?_
      rw [(scanGo_skel r rx st i cur j).2, hsup]

theorem positionNode_of_some (cx cy r rx : ℝ) (st : List Node) (i : ℕ)
    (h : (st.getD i default).x.isSome) :
    positionNode cx cy r rx st i = st.getD i default := by
  obtain ⟨v, hv⟩ := Option.isSome_iff_exists.mp h
  simp only [positionNode, hv, Option.isNone_some, Bool.false_eq_true, if_false]

theorem positionNode_skel (cx cy r rx : ℝ) (st : List Node) (i : ℕ) :
    (positionNode cx cy r rx st i).catid = (st.getD i default).catid ∧
    (positionNode cx cy r rx st i).supercatid = (st.getD i default).supercatid := by
  simp only [positionNode]
  split
  · cases hsc : (st.getD i default).supercatid with
    | none => exact ⟨rfl, by simp⟩
    | some k =>
      obtain ⟨h1, h2⟩ := scanFold_skel r rx st i (List.range st.length) (st.getD i default)
      exact ⟨h1, h2.trans hsc⟩
  · exact ⟨rfl, rfl⟩

theorem positionNode_mono (cx cy r rx : ℝ) (st : List Node) (i : ℕ)
    (h : (st.getD i default).x.isSome) :
    (positionNode cx cy r rx st i).x.isSome := by
  rw [positionNode_of_some cx cy r rx st i h]
  exact h

theorem positionNode_xy (cx cy r rx : ℝ) (st : List Node) (i : ℕ)
    (h : (st.getD i default).x.isSome → (st.getD i default).y.isSome) :
    (positionNode cx cy r rx st i).x.isSome → (positionNode cx cy r rx st i).y.isSome := by
  simp only [positionNode]
  split
  · cases hsc : (st.getD i default).supercatid with
    | none => intro _; rfl
    | some k => exact scanFold_xy r rx st i (List.range st.length) (st.getD i default) h
  · exact h

theorem positionNode_assigns_root (cx cy r rx : ℝ) (st : List Node) (i : ℕ)
    (h : (st.getD i default).supercatid = none) :
    (positionNode cx cy r rx st i).x.isSome := by
  simp only [positionNode]
  split
  · rw [h]
    rfl
  · rename_i hfalse
    exact isSome_of_not_isNone hfalse

theorem positionNode_assigns_child (cx cy r rx : ℝ) (st : List Node) (i : ℕ) (k : ℕ)
    (hsup : (st.getD i default).supercatid = some k)
    (jp : ℕ) (hjp : jp < st.length)
    (hcat : (st.getD jp default).catid = some k)
    (hx : (st.getD jp default).x.isSome) :
    (positionNode cx cy r rx st i).x.isSome := by
  simp only [positionNode]
  split
  · rename_i hnone
    rw [hsup]
    have hjpi : jp ≠ i := by
      intro hcontra
      rw [hcontra, Option.isNone_iff_eq_none.mp hnone] at hx
      exact Bool.noConfusion hx
    exact scanFold_assigns r rx st i k jp hjpi hcat hx (List.range st.length) _
      (List.mem_range.mpr hjp) hsup
  · rename_i hfalse
    exact isSome_of_not_isNone hfalse

theorem set_oob (v : Node) : ∀ (l : List Node) (i : ℕ), l.length ≤ i → l.set i v = l := by
  intro l
  induction l with
  | nil => intro i _; rfl
  | cons a rest ih =>
    intro i hi
    cases i with
    | zero => simp at hi
    | succ n => rw [List.set_cons_succ, ih n (by simpa using hi)]

theorem passStep_skel (cx cy r rx : ℝ) (acc : List Node) (i idx : ℕ) :
    (((acc.set i (positionNode cx cy r rx acc i)).getD idx default).catid =
      (acc.getD idx default).catid) ∧
    (((acc.set i (positionNode cx cy r rx acc i)).getD idx default).supercatid =
      (acc.getD idx default).supercatid) := by
  by_cases hlen : i < acc.length
  · by_cases hij : i = idx
    · subst hij
      rw [getD_set_self _ _ _ hlen]
      exact positionNode_skel cx cy r rx acc i
    · rw [getD_set_other _ _ _ _ hij]
      exact ⟨rfl, rfl⟩
  · rw [set_oob _ _ _ (by omega)]
    exact ⟨rfl, rfl⟩

theorem passStep_mono (cx cy r rx : ℝ) (acc : List Node) (i idx : ℕ)
    (h : (acc.getD idx default).x.isSome) :
    ((acc.set i (positionNode cx cy r rx acc i)).getD idx default).x.isSome := by
  by_cases hlen : i < acc.length
  · by_cases hij : i = idx
    · subst hij
      rw [getD_set_self _ _ _ hlen]
      exact positionNode_mono cx cy r rx acc i h
    · rw [getD_set_other _ _ _ _ hij]
      exact h
  · rw [set_oob _ _ _ (by omega)]
    exact h

theorem passStep_xy (cx cy r rx : ℝ) (acc : List Node) (i : ℕ)
    (h : ∀ idx, (acc.getD idx default).x.isSome → (acc.getD idx default).y.isSome) :
    ∀ idx, ((acc.set i (positionNode cx cy r rx acc i)).getD idx default).x.isSome →
      ((acc.set i (positionNode cx cy r rx acc i)).getD idx default).y.isSome := by
  intro idx
  by_cases hlen : i < acc.length
  · by_cases hij : i = idx
    · subst hij
      rw [getD_set_self _ _ _ hlen]
      exact positionNode_xy cx cy r rx acc i (h i)
    · rw [getD_set_other _ _ _ _ hij]
      exact h idx
  · rw [set_oob _ _ _ (by omega)]
    exact h idx

theorem passFold_length (cx cy r rx : ℝ) : ∀ (L : List ℕ) (acc : List Node),
    (L.foldl (fun acc i => acc.set i (positionNode cx cy r rx acc i)) acc).length =
      acc.length := by
  intro L
  induction L with
  | nil => intro acc; rfl
  | cons i L' ih =>
    intro acc
    rw [List.foldl_cons, ih, List.length_set]

theorem passFold_skel (cx cy r rx : ℝ) : ∀ (L : List ℕ) (acc : List Node) (idx : ℕ),
    (((L.foldl (fun acc i => acc.set i (positionNode cx cy r rx acc i)) acc).getD idx
        default).catid = (acc.getD idx default).catid) ∧
    (((L.foldl (fun acc i => acc.set i (positionNode cx cy r rx acc i)) acc).getD idx
        default).supercatid = (acc.getD idx default).supercatid) := by
  intro L
  induction L with
  | nil => intro acc idx; exact ⟨rfl, rfl⟩
  | cons i L' ih =>
    intro acc idx
    rw [List.foldl_cons]
    obtain ⟨h1, h2⟩ := ih (acc.set i (positionNode cx cy r rx acc i)) idx
    obtain ⟨g1, g2⟩ := passStep_skel cx cy r rx acc i idx
    exact ⟨h1.trans g1, h2.trans g2⟩

theorem passFold_mono (cx cy r rx : ℝ) : ∀ (L : List ℕ) (acc : List Node) (idx : ℕ),
    (acc.getD idx default).x.isSome →
    ((L.foldl (fun acc i => acc.set i (positionNode cx cy r rx acc i)) acc).getD idx
      default).x.isSome := by
  intro L
  induction L with
  | nil => intro acc idx h; exact h
  | cons i L' ih =>
    intro acc idx h
    rw [List.foldl_cons]
    exact ih _ idx (passStep_mono cx cy r rx acc i idx h)

theorem passFold_xy (cx cy r rx : ℝ) : ∀ (L : List ℕ) (acc : List Node),
    (∀ idx, (acc.getD idx default).x.isSome → (acc.getD idx default).y.isSome) →
    ∀ idx,
      ((L.foldl (fun acc i => acc.set i (positionNode cx cy r rx acc i)) acc).getD idx
        default).x.isSome →
      ((L.foldl (fun acc i => acc.set i (positionNode cx cy r rx acc i)) acc).getD idx
        default).y.isSome := by
  intro L
  induction L with
  | nil => intro acc h idx; exact h idx
  | cons i L' ih =>
    intro acc h idx
    rw [List.foldl_cons]
    exact ih _ (passStep_xy cx cy r rx acc i h) idx

theorem passFold_assigns_root (cx cy r rx : ℝ) : ∀ (L : List ℕ) (acc : List Node) (j : ℕ),
    j ∈ L → j < acc.length → (acc.getD j default).supercatid = none →
    ((L.foldl (fun acc i => acc.set i (positionNode cx cy r rx acc i)) acc).getD j
      default).x.isSome := by
  intro L
  induction L with
  | nil => intro acc j h; exact absurd h (List.not_mem_nil j)
  | cons i L' ih =>
    intro acc j hmem hj hsup
    rw [List.foldl_cons]
    rcases List.mem_cons.mp hmem with rfl | hmem'
    · refine passFold_mono cx cy r rx L' _ j ?_
      rw [getD_set_self _ _ _ hj]
      exact positionNode_assigns_root cx cy r rx acc j hsup
    · refine ih _ j hmem' ?_ ?_
      · rw [List.length_set]; exact hj
      · rw [(passStep_skel cx cy r rx acc i j).2]; exact hsup

theorem passFold_assigns_child (cx cy r rx : ℝ) (k : ℕ) :
    ∀ (L : List ℕ) (acc : List Node) (j jp : ℕ),
    j ∈ L → j < acc.length → (acc.getD j default).supercatid = some k →
    jp < acc.length → (acc.getD jp default).catid = some k →
    (acc.getD jp default).x.isSome →
    ((L.foldl (fun acc i => acc.set i (positionNode cx cy r rx acc i)) acc).getD j
      default).x.isSome := by
  intro L
  induction L with
  | nil => intro acc j jp h; exact absurd h (List.not_mem_nil j)
  | cons i L' ih =>
    intro acc j jp hmem hj hsup hjp hcat hx
    rw [List.foldl_cons]
    rcases List.mem_cons.mp hmem with rfl | hmem'
    · refine passFold_mono cx cy r rx L' _ j ?_
      rw [getD_set_self _ _ _ hj]
      exact positionNode_assigns_child cx cy r rx acc j k hsup jp hjp hcat hx
    · refine ih _ j jp hmem' ?_ ?_ ?_ ?_ ?_
      · rw [List.length_set]; exact hj
      · rw [(passStep_skel cx cy r rx acc i j).2]; exact hsup
      · rw [List.length_set]; exact hjp
      · rw [(passStep_skel cx cy r rx acc i jp).1]; exact hcat
      · exact passStep_mono cx cy r rx acc i jp hx

theorem getD_oob : ∀ (l : List Node) (idx : ℕ), l.length ≤ idx →
    l.getD idx default = default := by
  intro l
  induction l with
  | nil => intro idx _; cases idx <;> rfl
  | cons a rest ih =>
    intro idx hidx
    cases idx with
    | zero => simp at hidx
    | succ n =>
      rw [List.getD_cons_succ]
      exact ih n (by simpa using hidx)

theorem layoutPass_len (cx cy r rx : ℝ) (st : List Node) :
    (layoutPass cx cy r rx st).length = st.length :=
  passFold_length cx cy r rx (List.range st.length) st

theorem layoutPass_skel2 (cx cy r rx : ℝ) (st : List Node) (idx : ℕ) :
    (((layoutPass cx cy r rx st).getD idx default).catid = (st.getD idx default).catid) ∧
    (((layoutPass cx cy r rx st).getD idx default).supercatid =
      (st.getD idx default).supercatid) :=
  passFold_skel cx cy r rx (List.range st.length) st idx

theorem layoutPass_mono2 (cx cy r rx : ℝ) (st : List Node) (idx : ℕ)
    (h : (st.getD idx default).x.isSome) :
    ((layoutPass cx cy r rx st).getD idx default).x.isSome :=
  passFold_mono cx cy r rx (List.range st.length) st idx h

theorem layoutPass_xy2 (cx cy r rx : ℝ) (st : List Node)
    (h : ∀ idx, (st.getD idx default).x.isSome → (st.getD idx default).y.isSome) (idx : ℕ) :
    ((layoutPass cx cy r rx st).getD idx default).x.isSome →
    ((layoutPass cx cy r rx st).getD idx default).y.isSome :=
  passFold_xy cx cy r rx (List.range st.length) st h idx

theorem layoutPass_root2 (cx cy r rx : ℝ) (st : List Node) (j : ℕ) (hj : j < st.length)
    (hsup : (st.getD j default).supercatid = none) :
    ((layoutPass cx cy r rx st).getD j default).x.isSome :=
  passFold_assigns_root cx cy r rx (List.range st.length) st j (List.mem_range.mpr hj) hj hsup

theorem layoutPass_child2 (cx cy r rx : ℝ) (st : List Node) (j : ℕ) (k : ℕ) (jp : ℕ)
    (hj : j < st.length) (hsup : (st.getD j default).supercatid = some k)
    (hjp : jp < st.length) (hcat : (st.getD jp default).catid = some k)
    (hx : (st.getD jp default).x.isSome) :
    ((layoutPass cx cy r rx st).getD j default).x.isSome :=
  passFold_assigns_child cx cy r rx k (List.range st.length) st j jp (List.mem_range.mpr hj)
    hj hsup hjp hcat hx

theorem iter_length (cx cy r rx : ℝ) : ∀ (n : ℕ) (st : List Node),
    ((layoutPass cx cy r rx)^[n] st).length = st.length := by
  intro n
  induction n with
  | zero => intro st; rfl
  | succ n ih =>
    intro st
    rw [Function.iterate_succ_apply', layoutPass_len, ih]

theorem iter_skel (cx cy r rx : ℝ) : ∀ (n : ℕ) (st : List Node) (idx : ℕ),
    ((((layoutPass cx cy r rx)^[n] st).getD idx default).catid =
      (st.getD idx default).catid) ∧
    ((((layoutPass cx cy r rx)^[n] st).getD idx default).supercatid =
      (st.getD idx default).supercatid) := by
  intro n
  induction n with
  | zero => intro st idx; exact ⟨rfl, rfl⟩
  | succ n ih =>
    intro st idx
    rw [Function.iterate_succ_apply']
    obtain ⟨h1, h2⟩ := layoutPass_skel2 cx cy r rx ((layoutPass cx cy r rx)^[n] st) idx
    obtain ⟨g1, g2⟩ := ih st idx
    exact ⟨h1.trans g1, h2.trans g2⟩

theorem iter_mono (cx cy r rx : ℝ) : ∀ (n : ℕ) (st : List Node) (idx : ℕ),
    (st.getD idx default).x.isSome →
    (((layoutPass cx cy r rx)^[n] st).getD idx default).x.isSome := by
  intro n
  induction n with
  | zero => intro st idx h; exact h
  | succ n ih =>
    intro st idx h
    rw [Function.iterate_succ_apply']
    exact layoutPass_mono2 cx cy r rx _ idx (ih st idx h)

theorem iter_positions (cx cy r rx : ℝ) (st : List Node) :
    ∀ (F j : ℕ), j < st.length → resolvesIn st F (st.getD j default) = true →
      (((layoutPass cx cy r rx)^[F + 1] st).getD j default).x.isSome := by
  intro F
  induction F with
  | zero =>
    intro j hj hres
    rw [resolvesIn] at hres
    rw [Function.iterate_one]
    exact layoutPass_root2 cx cy r rx st j hj (Option.isNone_iff_eq_none.mp hres)
  | succ F ih =>
    intro j hj hres
    rw [resolvesIn] at hres
    rw [Bool.or_eq_true] at hres
    rcases hres with hroot | hany
    · rw [Function.iterate_succ_apply]
      refine iter_mono cx cy r rx (F + 1) _ j ?_
      have hj' : j < (layoutPass cx cy r rx st).length := by rw [layoutPass_len]; exact hj
      have := layoutPass_root2 cx cy r rx st j hj (Option.isNone_iff_eq_none.mp hroot)
      exact this
    · obtain ⟨p, hpmem, hp⟩ := List.any_eq_true.mp hany
      rw [Bool.and_eq_true] at hp
      obtain ⟨hpbeq, hpres⟩ := hp
      cases hsc : (st.getD j default).supercatid with
      | none =>
        rw [Function.iterate_succ_apply]
        refine iter_mono cx cy r rx (F + 1) _ j ?_
        exact layoutPass_root2 cx cy r rx st j hj hsc
      | some k =>
        obtain ⟨jp, hjp, hgetjp⟩ := getD_of_mem st p hpmem
        have hpcat : p.catid = some k := by
          have := eq_of_beq hpbeq
          rw [this, hsc]
        have hpos := ih jp hjp (by rw [hgetjp]; exact hpres)
        rw [Function.iterate_succ_apply']
        refine layoutPass_child2 cx cy r rx ((layoutPass cx cy r rx)^[F + 1] st) j k jp
          ?_ ?_ ?_ ?_ hpos
        · rw [iter_length]; exact hj
        · rw [(iter_skel cx cy r rx (F + 1) st j).2]; exact hsc
        · rw [iter_length]; exact hjp
        · rw [(iter_skel cx cy r rx (F + 1) st jp).1, hgetjp]; exact hpcat

theorem loop_xy (cx cy r rx : ℝ) : ∀ (f : ℕ) (st : List Node),
    (∀ idx, (st.getD idx default).x.isSome → (st.getD idx default).y.isSome) →
    ∀ idx, ((layoutLoop cx cy r rx f st).getD idx default).x.isSome →
      ((layoutLoop cx cy r rx f st).getD idx default).y.isSome := by
  intro f
  induction f with
  | zero => intro st h idx; exact h idx
  | succ n ih =>
    intro st h idx
    simp only [layoutLoop]
    split
    · exact ih _ (layoutPass_xy2 cx cy r rx st h) idx
    · exact layoutPass_xy2 cx cy r rx st h idx

theorem loop_allSome (cx cy r rx : ℝ) : ∀ (f n : ℕ) (st : List Node), n ≤ f →
    (∀ m ∈ (layoutPass cx cy r rx)^[n] st, m.x.isSome) →
    ∀ m ∈ layoutLoop cx cy r rx f st, m.x.isSome := by
  intro f
  induction f with
  | zero =>
    intro n st hn h
    have hn0 : n = 0 := by omega
    subst hn0
    exact h
  | succ f ih =>
    intro n st hn h
    simp only [layoutLoop]
    split
    · rename_i hany
      cases n with
      | zero =>
        exfalso
        rw [Function.iterate_zero_apply] at h
        obtain ⟨m, hm, hnone⟩ := List.any_eq_true.mp hany
        obtain ⟨j, hj, heq⟩ := getD_of_mem _ m hm
        have hj' : j < st.length := by
          have := layoutPass_len cx cy r rx st
          omega
        have hsome : ((layoutPass cx cy r rx st).getD j default).x.isSome :=
          layoutPass_mono2 cx cy r rx st j (h _ (mem_of_getD st j hj'))
        rw [heq] at hsome
        rw [Option.isNone_iff_eq_none.mp hnone] at hsome
        exact Bool.noConfusion hsome
      | succ n' =>
        exact ih n' (layoutPass cx cy r rx st) (by omega)
          (fun m hm => h m (by rw [Function.iterate_succ_apply]; exact hm))
    · rename_i hany
      intro m hm
      rw [Bool.not_eq_true] at hany
      have hfalse := List.any_eq_false.mp hany m hm
      exact isSome_of_not_isNone hfalse

/-- C1 (amended): the loop always terminates within the 1000-pass fuel; and
whenever every node of the list resolves — through `catid` lookup within the
list itself — to a parentless node in at most 999 hops, every node has a
non-`None` position when the loop exits.  Acyclicity alone is not enough
(see the C1 counterexample: a dangling parent reference is acyclic but never
positioned). -/
theorem c1_amended (cx cy r rx : ℝ) (model : List Node)
    (hres : ∀ m ∈ model, resolvesIn model 999 m = true)
    (hxy : ∀ m ∈ model, m.x.isSome → m.y.isSome) :
    ∀ m ∈ layoutLoop cx cy r rx 1000 model, m.x.isSome ∧ m.y.isSome := by
  have hidx : ∀ j, j < model.length →
      (((layoutPass cx cy r rx)^[1000] model).getD j default).x.isSome := by
    intro j hj
    exact iter_positions cx cy r rx model 999 j hj (hres _ (mem_of_getD model j hj))
  have hallx : ∀ m ∈ layoutLoop cx cy r rx 1000 model, m.x.isSome := by
    refine loop_allSome cx cy r rx 1000 1000 model le_rfl ?_
    intro m hm
    obtain ⟨j, hj, heq⟩ := getD_of_mem _ m hm
    rw [← heq]
    refine hidx j ?_
    have := iter_length cx cy r rx 1000 model
    omega
  intro m hm
  refine ⟨hallx m hm, ?_⟩
  obtain ⟨j, hj, heq⟩ := getD_of_mem _ m hm
  have hxyidx : ∀ idx, (model.getD idx default).x.isSome →
      (model.getD idx default).y.isSome := by
    intro idx
    by_cases hlt : idx < model.length
    · exact hxy _ (mem_of_getD model idx hlt)
    · rw [getD_oob model idx (by omega)]
      intro habs
      exact habs
  have hy := loop_xy cx cy r rx 1000 model hxyidx j
  rw [heq] at hy
  exact hy (hallx m hm)

/-- Witness for C1: the single root node, resolvable in 0 hops. -/
theorem c1_witness :
    (∀ m ∈ [soloRoot], resolvesIn [soloRoot] 999 m = true) ∧
    (∀ m ∈ [soloRoot], m.x.isSome → m.y.isSome) ∧
    ∀ m ∈ layoutLoop 300 300 180 1 1000 [soloRoot], m.x.isSome ∧ m.y.isSome :=
  ⟨by decide, by decide, c1_amended 300 300 180 1 [soloRoot] (by decide) (by decide)⟩

theorem except_bind_ok {α β : Type} (a : α) (f : α → Except DGErr β) :
    (Except.ok a : Except DGErr α) >>= f = f a := rfl

theorem clampPhase_err (cx cy : ℝ) : ∀ l : List Node, (∃ m ∈ l, m.x = none) →
    clampPhase cx cy l = .error .clampTypeError := by
  intro l
  induction l with
  | nil =>
    intro h
    obtain ⟨m, hm, _⟩ := h
    simp at hm
  | cons a rest ih =>
    intro h
    obtain ⟨m, hm, hmx⟩ := h
    simp only [clampPhase]
    cases hcn : clampNode cx cy a with
    | error e =>
      have he : e = DGErr.clampTypeError := by
        revert hcn
        simp only [clampNode]
        cases a.x with
        | none =>
          cases a.y with
          | none => intro hcn; injection hcn with h'; exact h'.symm
          | some yv => intro hcn; injection hcn with h'; exact h'.symm
        | some xv =>
          cases a.y with
          | none => intro hcn; injection hcn with h'; exact h'.symm
          | some yv => intro hcn; exact Except.noConfusion hcn
      subst he
      rfl
    | ok a' =>
      have hax : a.x.isSome := by
        revert hcn
        simp only [clampNode]
        cases a.x with
        | none =>
          cases a.y with
          | none => intro hcn; exact Except.noConfusion hcn
          | some yv => intro hcn; exact Except.noConfusion hcn
        | some xv => intro _; rfl
      rcases List.mem_cons.mp hm with rfl | hmrest
      · rw [hmx] at hax
        exact absurd hax (by simp)
      · rw [ih ⟨m, hmrest, hmx⟩]
        rfl

theorem gnwcLoop_prefix : ∀ (fuel : ℕ) (newM model res : List Node),
    gnwcLoop fuel newM model = .ok res → ∃ t, res = newM ++ t := by
  intro fuel
  induction fuel with
  | zero =>
    intro newM model res h
    simp only [gnwcLoop] at h
    injection h with h'
    exact ⟨[], by rw [← h']; simp⟩
  | succ fuel ih =>
    intro newM model res h
    simp only [gnwcLoop] at h
    cases model with
    | nil =>
      injection h with h'
      exact ⟨[], by rw [← h']; simp⟩
    | cons m0 mrest =>
      cases hra : removeAll (m0 :: mrest)
          ((newM.flatMap fun n => (m0 :: mrest).filter fun m => m.supercatid == n.catid)) with
      | none =>
        rw [hra] at h
        exact Except.noConfusion h
      | some model' =>
        rw [hra] at h
        cases happ : (newM.flatMap fun n => (m0 :: mrest).filter fun m =>
            m.supercatid == n.catid) with
        | nil =>
          rw [happ] at h
          injection h with h'
          exact ⟨[], by rw [← h']; simp⟩
        | cons a arest =>
          rw [happ] at h
          obtain ⟨t', ht'⟩ := ih (newM ++ (a :: arest)) model' res h
          exact ⟨a :: arest ++ t', by rw [ht', List.append_assoc]⟩

theorem depthPhase_sk (cats : List Node) : ∀ (l l2 : List Node),
    depthPhase cats l = .ok l2 →
    l2.length = l.length ∧ ∀ idx,
      ((l2.getD idx default).catid = (l.getD idx default).catid) ∧
      ((l2.getD idx default).supercatid = (l.getD idx default).supercatid) ∧
      ((l2.getD idx default).x = (l.getD idx default).x) := by
  intro l
  induction l with
  | nil =>
    intro l2 h
    simp only [depthPhase] at h
    injection h with h'
    subst h'
    exact ⟨rfl, fun idx => ⟨rfl, rfl, rfl⟩⟩
  | cons m rest ih =>
    intro l2 h
    simp only [depthPhase] at h
    cases hnd : nodeDepth cats m.supercatid with
    | none =>
      rw [hnd] at h
      exact Except.noConfusion h
    | some d =>
      rw [hnd] at h
      cases hrest : depthPhase cats rest with
      | error e =>
        rw [hrest] at h
        simp only [Except.map] at h
        exact Except.noConfusion h
      | ok l2' =>
        rw [hrest] at h
        simp only [Except.map] at h
        injection h with h'
        subst h'
        obtain ⟨ihlen, ihidx⟩ := ih l2' hrest
        refine ⟨by simp [ihlen], ?_⟩
        intro idx
        cases idx with
        | zero => exact ⟨rfl, rfl, rfl⟩
        | succ n =>
          simp only [List.getD_cons_succ]
          exact ihidx n

theorem assignKeyAux_sk (key : Option ℕ) (cnt : ℕ) : ∀ (l : List Node) (seg : ℕ),
    ((assignKeyAux key cnt seg l).length = l.length) ∧
    ∀ idx,
      (((assignKeyAux key cnt seg l).getD idx default).catid =
        (l.getD idx default).catid) ∧
      (((assignKeyAux key cnt seg l).getD idx default).supercatid =
        (l.getD idx default).supercatid) ∧
      (((assignKeyAux key cnt seg l).getD idx default).x = (l.getD idx default).x) := by
  intro l
  induction l with
  | nil => intro seg; exact ⟨rfl, fun idx => ⟨rfl, rfl, rfl⟩⟩
  | cons m rest ih =>
    intro seg
    simp only [assignKeyAux]
    split
    · obtain ⟨ihlen, ihidx⟩ := ih (seg + 1)
      refine ⟨by simp [ihlen], ?_⟩
      intro idx
      cases idx with
      | zero => exact ⟨rfl, rfl, rfl⟩
      | succ n =>
        simp only [List.getD_cons_succ]
        exact ihidx n
    · obtain ⟨ihlen, ihidx⟩ := ih seg
      refine ⟨by simp [ihlen], ?_⟩
      intro idx
      cases idx with
      | zero => exact ⟨rfl, rfl, rfl⟩
      | succ n =>
        simp only [List.getD_cons_succ]
        exact ihidx n

theorem anglePhase_sk (model : List Node) :
    ((anglePhase model).length = model.length) ∧
    ∀ idx,
      (((anglePhase model).getD idx default).catid = (model.getD idx default).catid) ∧
      (((anglePhase model).getD idx default).supercatid =
        (model.getD idx default).supercatid) ∧
      (((anglePhase model).getD idx default).x = (model.getD idx default).x) := by
  have hgen : ∀ (keys : List (Option ℕ)) (st : List Node),
      ((keys.foldl (fun st key =>
          assignKeyAux key ((model.map (·.supercatid)).count key) 1 st) st).length =
        st.length) ∧
      ∀ idx,
        (((keys.foldl (fun st key =>
            assignKeyAux key ((model.map (·.supercatid)).count key) 1 st) st).getD idx
              default).catid = (st.getD idx default).catid) ∧
        (((keys.foldl (fun st key =>
            assignKeyAux key ((model.map (·.supercatid)).count key) 1 st) st).getD idx
              default).supercatid = (st.getD idx default).supercatid) ∧
        (((keys.foldl (fun st key =>
            assignKeyAux key ((model.map (·.supercatid)).count key) 1 st) st).getD idx
              default).x = (st.getD idx default).x) := by
    intro keys
    induction keys with
    | nil => intro st; exact ⟨rfl, fun idx => ⟨rfl, rfl, rfl⟩⟩
    | cons k krest ih =>
      intro st
      rw [List.foldl_cons]
      obtain ⟨hl1, hidx1⟩ := assignKeyAux_sk k ((model.map (·.supercatid)).count k) st 1
      obtain ⟨hl2, hidx2⟩ :=
        ih (assignKeyAux k ((model.map (·.supercatid)).count k) 1 st)
      refine ⟨hl2.trans hl1, fun idx => ?_⟩
      obtain ⟨a1, a2, a3⟩ := hidx1 idx
      obtain ⟨b1, b2, b3⟩ := hidx2 idx
      exact ⟨b1.trans a1, b2.trans a2, b3.trans a3⟩
  exact hgen (firstOccs (model.map (·.supercatid))) model

theorem scanGo_stuck (r rx : ℝ) (st : List Node) (i : ℕ) (cur : Node) (p : ℕ)
    (hsup : cur.supercatid = some p) (hself : cur.catid ≠ some p)
    (hnop : ∀ jx, (st.getD jx default).catid ≠ some p) (j : ℕ) :
    scanGo r rx st i cur j = cur := by
  have hcond : ∀ s : Node, s.catid ≠ some p →
      (s.catid == cur.supercatid && s.x.isSome) = false := by
    intro s hsc
    rw [hsup]
    cases hbeq : s.catid == some p with
    | true => exact absurd (eq_of_beq hbeq) hsc
    | false => rfl
  simp only [scanGo]
  split
  · rw [hcond cur hself]
    simp only [Bool.false_eq_true, if_false]
  · rw [hcond _ (hnop j)]
    simp only [Bool.false_eq_true, if_false]

theorem foldl_scanGo_stuck (r rx : ℝ) (st : List Node) (i : ℕ) (p : ℕ)
    (hnop : ∀ jx, (st.getD jx default).catid ≠ some p) :
    ∀ (L : List ℕ) (cur : Node), cur.supercatid = some p → cur.catid ≠ some p →
      L.foldl (scanGo r rx st i) cur = cur := by
  intro L
  induction L with
  | nil => intro cur _ _; rfl
  | cons j rest ih =>
    intro cur h1 h2
    rw [List.foldl_cons, scanGo_stuck r rx st i cur p h1 h2 hnop j]
    exact ih cur h1 h2

theorem positionNode_stuck (cx cy r rx : ℝ) (st : List Node) (i : ℕ) (p : ℕ)
    (hsup : (st.getD i default).supercatid = some p)
    (hnop : ∀ jx, (st.getD jx default).catid ≠ some p) :
    positionNode cx cy r rx st i = st.getD i default := by
  simp only [positionNode]
  split
  · rw [hsup]
    exact foldl_scanGo_stuck r rx st i p hnop (List.range st.length)
      (st.getD i default) hsup (hnop i)
  · rfl

theorem passFold_stuck (cx cy r rx : ℝ) (p i : ℕ) : ∀ (L : List ℕ) (acc : List Node),
    (∀ jx, (acc.getD jx default).catid ≠ some p) →
    ((acc.getD i default).supercatid = some p) →
    ((L.foldl (fun acc i => acc.set i (positionNode cx cy r rx acc i)) acc).getD i
      default).x = (acc.getD i default).x := by
  intro L
  induction L with
  | nil => intro acc _ _; rfl
  | cons j rest ih =>
    intro acc hnop hsup
    rw [List.foldl_cons]
    have hstep_catid : ∀ jx,
        ((acc.set j (positionNode cx cy r rx acc j)).getD jx default).catid ≠ some p :=
      fun jx => by
        rw [(passStep_skel cx cy r rx acc j jx).1]
        exact hnop jx
    have hstep_sup :
        ((acc.set j (positionNode cx cy r rx acc j)).getD i default).supercatid =
          some p := by
      rw [(passStep_skel cx cy r rx acc j i).2]
      exact hsup
    rw [ih _ hstep_catid hstep_sup]
    by_cases hji : j = i
    · subst hji
      by_cases hlen : j < acc.length
      · rw [getD_set_self _ _ _ hlen]
        rw [positionNode_stuck cx cy r rx acc j p hsup hnop]
      · rw [set_oob _ _ _ (by omega)]
    · rw [getD_set_other _ _ _ _ hji]

theorem layoutPass_stuck (cx cy r rx : ℝ) (st : List Node) (p i : ℕ)
    (hnop : ∀ jx, (st.getD jx default).catid ≠ some p)
    (hsup : (st.getD i default).supercatid = some p) :
    ((layoutPass cx cy r rx st).getD i default).x = (st.getD i default).x :=
  passFold_stuck cx cy r rx p i (List.range st.length) st hnop hsup

theorem loop_length (cx cy r rx : ℝ) : ∀ (f : ℕ) (st : List Node),
    (layoutLoop cx cy r rx f st).length = st.length := by
  intro f
  induction f with
  | zero => intro st; rfl
  | succ n ih =>
    intro st
    simp only [layoutLoop]
    split
    · rw [ih, layoutPass_len]
    · exact layoutPass_len cx cy r rx st

theorem loop_stuck (cx cy r rx : ℝ) (p i : ℕ) : ∀ (f : ℕ) (st : List Node),
    (∀ jx, (st.getD jx default).catid ≠ some p) →
    ((st.getD i default).supercatid = some p) →
    ((layoutLoop cx cy r rx f st).getD i default).x = (st.getD i default).x := by
  intro f
  induction f with
  | zero => intro st _ _; rfl
  | succ n ih =>
    intro st hnop hsup
    simp only [layoutLoop]
    split
    · exact (ih (layoutPass cx cy r rx st)
        (fun jx => by rw [(layoutPass_skel2 cx cy r rx st jx).1]; exact hnop jx)
        (by rw [(layoutPass_skel2 cx cy r rx st i).2]; exact hsup)).trans
        (layoutPass_stuck cx cy r rx st p i hnop hsup)
    · exact layoutPass_stuck cx cy r rx st p i hnop hsup

/-- C5: selecting a non-root category (one whose own `supercatid` is `some p`)
as subtree root makes the render fail with a `TypeError` in the out-of-view
clamp: `get_node_with_children` collects the category and its descendants
only, so — as long as the working set contains no node with `catid = some p`,
i.e. the parent is indeed excluded and not smuggled back in by corrupt data —
the scan condition `s['catid'] == m['supercatid']` never fires for the
selected root, its `x` is still `None` after the 1000-pass cap, and the clamp
comparison `None < 2` raises.  The depth phase is assumed to succeed (it
walks the full category list, so it does for every sane category table). -/
theorem c5_nonroot_selection_typeerror (cats : List CatRow) (codes : List CodeRow)
    (bw fs : Bool) (sel : String) (w h : ℝ) (c : Node) (p : ℕ)
    (model1 model2 : List Node)
    (hsel : sel ≠ "All")
    (hfind : (cats.map (initCat fs)).find? (fun cc => cc.name == sel) = some c)
    (hsup : c.supercatid = some p)
    (hgnwc : getNodeWithChildren (some c)
        (cats.map (initCat fs) ++ codes.map (initCode bw)) = .ok model1)
    (hdepth : depthPhase (cats.map (initCat fs)) model1 = .ok model2)
    (hnop : ∀ m ∈ model1, m.catid ≠ some p) :
    doGraph cats codes bw fs sel w h = .error .clampTypeError := by
  have hres : resolveTopNode sel (cats.map (initCat fs)) = .ok (some c) := by
    simp only [resolveTopNode]
    rw [if_neg hsel, hfind]
  have hcx : c.x = none := by
    obtain ⟨r0, _, hr0eq⟩ := List.mem_map.mp (List.mem_of_find?_eq_some hfind)
    rw [← hr0eq]
    rfl
  obtain ⟨t, ht⟩ := gnwcLoop_prefix 10 [c]
    (cats.map (initCat fs) ++ codes.map (initCode bw)) model1 hgnwc
  have h1sup : (model1.getD 0 default).supercatid = some p := by rw [ht]; exact hsup
  have h1x : (model1.getD 0 default).x = none := by rw [ht]; exact hcx
  have h1len : 0 < model1.length := by rw [ht]; simp
  have h1nop : ∀ jx, (model1.getD jx default).catid ≠ some p := by
    intro jx
    by_cases hlt : jx < model1.length
    · exact hnop _ (mem_of_getD model1 jx hlt)
    · rw [getD_oob model1 jx (by omega)]
      exact fun hc => Option.noConfusion hc
  obtain ⟨hdlen, hdidx⟩ := depthPhase_sk (cats.map (initCat fs)) model1 model2 hdepth
  have h2sup : (model2.getD 0 default).supercatid = some p := by
    rw [(hdidx 0).2.1]; exact h1sup
  have h2x : (model2.getD 0 default).x = none := by
    rw [(hdidx 0).2.2]; exact h1x
  have h2nop : ∀ jx, (model2.getD jx default).catid ≠ some p := fun jx => by
    rw [(hdidx jx).1]; exact h1nop jx
  have h2len : 0 < model2.length := by omega
  obtain ⟨halen, haidx⟩ := anglePhase_sk model2
  have h3sup : ((anglePhase model2).getD 0 default).supercatid = some p := by
    rw [(haidx 0).2.1]; exact h2sup
  have h3x : ((anglePhase model2).getD 0 default).x = none := by
    rw [(haidx 0).2.2]; exact h2x
  have h3nop : ∀ jx, ((anglePhase model2).getD jx default).catid ≠ some p := fun jx => by
    rw [(haidx jx).1]; exact h2nop jx
  have h3len : 0 < (anglePhase model2).length := by omega
  have hloopx : ((layoutLoop (w / 3) (h / 2) 180 (w / 3 / (h / 2)) 1000
      (anglePhase model2)).getD 0 default).x = none := by
    rw [loop_stuck (w / 3) (h / 2) 180 (w / 3 / (h / 2)) p 0 1000
      (anglePhase model2) h3nop h3sup]
    exact h3x
  have hlooplen : 0 < (layoutLoop (w / 3) (h / 2) 180 (w / 3 / (h / 2)) 1000
      (anglePhase model2)).length := by
    rw [loop_length]
    exact h3len
  have hclamp := clampPhase_err (w / 3) (h / 2)
    (layoutLoop (w / 3) (h / 2) 180 (w / 3 / (h / 2)) 1000 (anglePhase model2))
    ⟨_, mem_of_getD _ 0 hlooplen, hloopx⟩
  have hkey : doGraph cats codes bw fs sel w h =
      clampPhase (w / 3) (h / 2) (layoutLoop (w / 3) (h / 2) 180 (w / 3 / (h / 2)) 1000
        (anglePhase model2)) := by
    simp only [doGraph, hres, except_bind_ok, hgnwc, hdepth]
  rw [hkey]
  exact hclamp

/-- Witness for C5: the category pair A → B with B selected on the 900 × 600
scene. -/
theorem c5_witness :
    ("B" ≠ "All") ∧
    ((abRows.map (initCat false)).find? (fun cc => cc.name == "B") = some bNode) ∧
    (bNode.supercatid = some 1) ∧
    (getNodeWithChildren (some bNode)
      (abRows.map (initCat false) ++ ([] : List CodeRow).map (initCode false)) =
        .ok [bNode]) ∧
    (depthPhase (abRows.map (initCat false)) [bNode] = .ok [{bNode with depth := 1}]) ∧
    (∀ m ∈ [bNode], m.catid ≠ some 1) ∧
    doGraph abRows [] false false "B" 900 600 = .error .clampTypeError :=
  ⟨by decide, rfl, rfl, rfl, rfl, by decide,
    c5_nonroot_selection_typeerror abRows [] false false "B" 900 600 bNode 1
      [bNode] [{bNode with depth := 1}] (by decide) rfl rfl rfl rfl (by decide)⟩
